import Mathlib

/-!
A shallow embedding of `jsonparser.py`: a grammar compiler (`grammar`) and a
memoized recursive-descent PEG matcher (`parse` / `parse_atom`), together with
theorems checking the specification's claims against this embedding.

Python strings are modelled as `List Char` (named `Str` below), Python's
dynamically typed parse-tree values as the inductive `PVal` (`None`, strings,
lists), and the grammar dictionary as an association list with dict-style
insertion (overwrite in place, else append).  The matcher in the source can
recurse without bound on left-recursive grammars, so the embedding is fueled:
`none` models a computation that did not finish within the given fuel, and is
distinct from the parser's own failure value `Fail = (None, None)`.

Terminal atoms are matched with Python's `re.match`; the embedding contains a
small backtracking regex engine (`Regex.mlF`) covering the constructs the
tokenizer patterns of this repository's claims use: literal characters,
escaped literals, the class `\s`, greedy `*`, and one capturing group.  A
pattern outside this subset fails to compile (`compileRe` returns `none`) and
the terminal match is modelled as a failure; in Python such patterns either
behave identically (for the supported subset, which is checked against
`re.match` semantics: leftmost backtracking, greedy star, ordered
alternatives) or raise `re.error`/`IndexError`, which the specification's
error taxonomy classifies as pattern-level errors, not parse failures.
-/

/-- Python strings, as lists of characters. -/
abbrev Str := List Char

/-- The characters Python's `str.strip` / `str.split()` treat as whitespace
(ASCII range; the source only ever splits ASCII grammar descriptions). -/
def pyIsSpace (c : Char) : Bool :=
  c = ' ' || c = '\t' || c = '\n' || c = '\r' || c = '\x0b' || c = '\x0c'

/-- Python `text.strip()`. -/
def pyStrip (s : Str) : Str :=
  ((s.dropWhile pyIsSpace).reverse.dropWhile pyIsSpace).reverse

/-- Does `sep` occur at the front of `s`? (used to locate separator
occurrences, as `str.split(sep, ...)` does). -/
def lstarts : Str → Str → Bool
  | [], _ => true
  | _ :: _, [] => false
  | a :: as, b :: bs => a = b && lstarts as bs

/-- Scan `s` for the first occurrence of `sep`; return the part before it and,
if found, the part after it. -/
def breakOn (sep : Str) : Str → Str × Option Str
  | [] => ([], none)
  | c :: rest =>
    if lstarts sep (c :: rest) then ([], some ((c :: rest).drop sep.length))
    else
      match breakOn sep rest with
      | (b, a) => (c :: b, a)

/-- Python `s.split(sep, 1)`: at most one split, at the first occurrence. -/
def splitSep1 (sep s : Str) : List Str :=
  match breakOn sep s with
  | (b, none) => [b]
  | (b, some a) => [b, a]

/-- Python `s.split(sep)`, fueled (each found separator strictly shrinks the
remaining text, so fuel `s.length + 1` always suffices). -/
def splitSepF : Nat → Str → Str → List Str
  | 0, _, s => [s]
  | f + 1, sep, s =>
    match breakOn sep s with
    | (b, none) => [b]
    | (b, some a) => b :: splitSepF f sep a

/-- Python `s.split(sep)` (no maxsplit). -/
def splitSepAll (sep s : Str) : List Str :=
  splitSepF (s.length + 1) sep s

/-- Python `s.split()` (split on whitespace runs, no empty pieces). -/
def wsplit (s : Str) : List Str :=
  (s.foldr
    (fun c acc =>
      if pyIsSpace c then [] :: acc
      else
        match acc with
        | [] => [[c]]
        | w :: t => (c :: w) :: t)
    []).filter (fun w => w ≠ [])

/-- The post-processing the source's `split` helper applies to the raw pieces:
`[t.strip() for t in pieces if t]` (drop pieces empty before stripping, then
strip each). -/
def pySplitPost (pieces : List Str) : List Str :=
  (pieces.filter (fun t => t ≠ [])).map pyStrip

/-- The source's `split(text, sep)` (strip, split on `sep`, post-process). -/
def pySplit (sep text : Str) : List Str :=
  pySplitPost (splitSepAll sep (pyStrip text))

/-- The source's `split(text, sep, 1)`. -/
def pySplit1 (sep text : Str) : List Str :=
  pySplitPost (splitSep1 sep (pyStrip text))

/-- The source's `split(text)` (whitespace split). -/
def pySplitW (text : Str) : List Str :=
  pySplitPost (wsplit (pyStrip text))

/-- A value of the grammar dictionary: the reserved entry `G[' ']` holds the
whitespace pattern (a string), every other entry holds a tuple of
alternatives, each an ordered list of atom strings. -/
inductive GEntry where
  | wsE : Str → GEntry
  | rulesE : List (List Str) → GEntry
deriving DecidableEq

/-- The grammar dictionary, as an insertion-ordered association list. -/
abbrev Grammar := List (Str × GEntry)

/-- Python dict lookup. -/
def dictFind (G : Grammar) (k : Str) : Option GEntry :=
  match G with
  | [] => none
  | (k', v) :: rest => if k' = k then some v else dictFind rest k

/-- Python dict assignment `G[k] = v`: overwrite in place, else append. -/
def dictInsert (G : Grammar) (k : Str) (v : GEntry) : Grammar :=
  match G with
  | [] => [(k, v)]
  | (k', v') :: rest => if k' = k then (k, v) :: rest else (k', v') :: dictInsert rest k v

/-- The payload of the `ValueError` Python raises when `lhs, rhs = split(...)`
unpacks a list whose length is not 2: "not enough values to unpack
(expected 2, got n)".  The error carries the two counts and nothing else — in
particular not the offending line's text. -/
structure CompileError where
  expected : Nat
  got : Nat
deriving DecidableEq

/-- The ` => ` separator between a rule's symbol and its alternatives. -/
def sepArrow : Str := " => ".data

/-- The ` | ` separator between alternatives. -/
def sepBar : Str := " | ".data

/-- The reserved whitespace key `' '`. -/
def spaceKey : Str := [' ']

/-- `tuple(map(split, split(rhs, ' | ')))`: a rule line's right-hand side as a
tuple of alternatives, each an ordered list of atoms. -/
def rhsAlts (rhs : Str) : List (List Str) :=
  (pySplit sepBar rhs).map pySplitW

/-- The rule lines of a description: tabs replaced by spaces, then
`split(description, '\n')`. -/
def gramLines (description : Str) : List Str :=
  pySplit ['\n'] (description.map (fun c => if c = '\t' then ' ' else c))

/-- The loop body of `grammar`: process each line with
`lhs, rhs = split(line, ' => ', 1)`, storing `G[lhs] = tuple(...)`; a line
whose split does not have exactly two pieces raises `ValueError`. -/
def gramLoop : List Str → Grammar → Except CompileError Grammar
  | [], G => .ok G
  | line :: rest, G =>
    match pySplit1 sepArrow line with
    | [lhs, rhs] => gramLoop rest (dictInsert G lhs (.rulesE (rhsAlts rhs)))
    | pieces => .error ⟨2, pieces.length⟩

/-- The source's `grammar(description, whitespace)`: start from
`{' ': whitespace}`, replace tabs, and process each line. -/
def grammar (description whitespace : Str) : Except CompileError Grammar :=
  gramLoop (gramLines description) [(spaceKey, .wsE whitespace)]

/-- Python's default whitespace pattern argument, `r'\s*'`. -/
def defaultWs : Str := "\\s*".data

/-- A Python value appearing in parse results: `None`, a string, or a list
(the source is dynamically typed; these are the only shapes reachable). -/
inductive PVal where
  | none_ : PVal
  | str : Str → PVal
  | list : List PVal → PVal

/-- A `(tree, remainder)` pair as returned by `parse_atom`/`parse_sequence`:
the remainder is `None` or a string. -/
abbrev Res := PVal × Option Str

/-- The source's failure sentinel `Fail = (None, None)`. -/
def Fail : Res := (PVal.none_, none)

/-- `[atom] + tree` (Python list concatenation; `tree` is always a list when
this is evaluated — the default branch would be a Python `TypeError`). -/
def pyCons (h : PVal) : PVal → PVal
  | .list xs => .list (h :: xs)
  | _ => .none_

/-- An item of a character class: a single character or a range. -/
inductive CItem where
  | single : Char → CItem
  | range : Char → Char → CItem
deriving DecidableEq

/-- Does a class item cover the character `d`? -/
def cmatch (d : Char) : CItem → Bool
  | .single c => d = c
  | .range a b => a ≤ d && d ≤ b

/-- Does a (possibly negated) character class match `d`? -/
def clsMatch (neg : Bool) (items : List CItem) (d : Char) : Bool :=
  if neg then !(items.any (cmatch d)) else items.any (cmatch d)

/-- Tokens of a regular-expression pattern. -/
inductive RTok where
  | lit : Char → RTok
  | wsCls : RTok
  | star : RTok
  | plus : RTok
  | qmark : RTok
  | rep : Nat → Option Nat → RTok
  | altT : RTok
  | clsT : Bool → List CItem → RTok
  | lpar : RTok
  | rpar : RTok
deriving DecidableEq

/-- Scan the body of a character class up to the closing `]`.  Ranges `a-b`
require `a ≤ b` (Python: "bad character range"); a backslash escapes a
non-alphanumeric character to a literal; a trailing `-` is a literal.
Escaped range endpoints (`[a-\\]`) are outside the model. -/
def clsScan : Str → Option (List CItem × Str)
  | [] => none
  | ']' :: rest => some ([], rest)
  | '\\' :: [] => none
  | '\\' :: c :: rest =>
    if c.isAlphanum then none
    else (clsScan rest).map (fun p => (.single c :: p.1, p.2))
  | a :: '-' :: ']' :: rest => some ([.single a, .single '-'], rest)
  | a :: '-' :: b :: rest =>
    if a ≤ b then (clsScan rest).map (fun p => (.range a b :: p.1, p.2))
    else none
  | a :: rest => (clsScan rest).map (fun p => (.single a :: p.1, p.2))

/-- The class form after `[`: an optional `^`, then (Python's rule) a leading
`]` is a literal member, then items up to the closing `]`. -/
def rlexCls (s : Str) : Option (Bool × List CItem × Str) :=
  match s with
  | '^' :: ']' :: r => (clsScan r).map (fun p => (true, .single ']' :: p.1, p.2))
  | '^' :: r => (clsScan r).map (fun p => (true, p.1, p.2))
  | ']' :: r => (clsScan r).map (fun p => (false, .single ']' :: p.1, p.2))
  | _ => (clsScan s).map (fun p => (false, p.1, p.2))

/-- Digits to a number (for brace quantifiers). -/
def digitsToNat (ds : Str) : Nat :=
  ds.foldl (fun n c => n * 10 + (c.toNat - 48)) 0

/-- After a `{`: recognize the quantifier forms `{m}`, `{m,}`, `{,n}` and
`{m,n}`; Python treats any other brace sequence as literal characters, and
so does the lexer (`none` here means "not a quantifier"). -/
def braceQuant (s : Str) : Option (Nat × Option Nat × Str) :=
  let ds := s.takeWhile Char.isDigit
  match s.dropWhile Char.isDigit with
  | c :: r2 =>
    if c = Char.ofNat 125 then
      if ds = [] then none else some (digitsToNat ds, some (digitsToNat ds), r2)
    else if c = ',' then
      let ds2 := r2.takeWhile Char.isDigit
      match r2.dropWhile Char.isDigit with
      | c2 :: r4 =>
        if c2 = Char.ofNat 125 then
          if ds = [] && ds2 = [] then none
          else some (digitsToNat ds,
            if ds2 = [] then none else some (digitsToNat ds2), r4)
        else none
      | [] => none
    else none
  | [] => none

/-- Lex a pattern string into tokens, with fuel (each step consumes at least
one character, so `s.length + 1` is never exhausted).  Coverage — the syntax
Python's `re` gives these patterns: literal characters, `\s`, a backslash
escaping a non-alphanumeric character, `( ) * + ? |`, `.` (any character but
newline, i.e. the class `[^\n]`), character classes with negation and
ranges, and brace quantifiers; a brace sequence that is not a quantifier is
a literal, as are stray `]` and `}`.  Outside the model (lexed as `none`):
other alphanumeric escapes (`\d`, `\w`, `\b`, ...) and the anchors `^` `$`;
Python accepts these, so patterns using them are not covered by the
embedding (none occur in this repository's grammars). -/
def rlexF : Nat → Str → Option (List RTok)
  | 0, _ => none
  | _, [] => some []
  | f + 1, c :: rest =>
    if c = '\\' then
      match rest with
      | [] => none
      | e :: rest2 =>
        if e = 's' then (rlexF f rest2).map (.wsCls :: ·)
        else if e.isAlphanum then none
        else (rlexF f rest2).map (.lit e :: ·)
    else if c = '(' then (rlexF f rest).map (.lpar :: ·)
    else if c = ')' then (rlexF f rest).map (.rpar :: ·)
    else if c = '*' then (rlexF f rest).map (.star :: ·)
    else if c = '+' then (rlexF f rest).map (.plus :: ·)
    else if c = '?' then (rlexF f rest).map (.qmark :: ·)
    else if c = '|' then (rlexF f rest).map (.altT :: ·)
    else if c = '.' then (rlexF f rest).map (.clsT true [.single '\n'] :: ·)
    else if c = '[' then
      match rlexCls rest with
      | none => none
      | some (neg, items, rest2) => (rlexF f rest2).map (.clsT neg items :: ·)
    else if c = Char.ofNat 123 then
      match braceQuant rest with
      | some (lo, hi, rest2) => (rlexF f rest2).map (.rep lo hi :: ·)
      | none => (rlexF f rest).map (.lit c :: ·)
    else if c = '^' || c = '$' then none
    else (rlexF f rest).map (.lit c :: ·)

/-- Lex a pattern string. -/
def rlex (s : Str) : Option (List RTok) :=
  rlexF (s.length + 1) s

/-- Regular expressions: empty, a literal character, the class `\s`, a
character class, alternation (ordered), greedy star, concatenation, and the
capturing group.  Exactly group 1 is represented: it is the only group the
program ever reads (`m.group(1)`), so later groups compile to their bare
contents. -/
inductive Regex where
  | eps : Regex
  | char : Char → Regex
  | wsc : Regex
  | cls : Bool → List CItem → Regex
  | alt : Regex → Regex → Regex
  | star : Regex → Regex
  | seq : Regex → Regex → Regex
  | group : Regex → Regex

/-- `r{n}`: exactly `n` copies. -/
def repExact : Nat → Regex → Regex
  | 0, _ => .eps
  | n + 1, r => .seq r (repExact n r)

/-- Up to `n` further copies, greedy (more copies are tried first). -/
def repOpt : Nat → Regex → Regex
  | 0, _ => .eps
  | n + 1, r => .alt (.seq r (repOpt n r)) .eps

/-- Apply a postfix quantifier token to the preceding unit (greedy; a
`{m,n}` with `n < m` is Python's "min repeat greater than max" error). -/
def applyQuant (r : Regex) : RTok → Option Regex
  | .star => some (.star r)
  | .plus => some (.seq r (.star r))
  | .qmark => some (.alt r .eps)
  | .rep lo (some hi) =>
    if hi < lo then none else some (.seq (repExact lo r) (repOpt (hi - lo) r))
  | .rep lo none => some (.seq (repExact lo r) (.star r))
  | _ => none

/-- Is this token a postfix quantifier? -/
def RTok.isQuant : RTok → Bool
  | .star => true
  | .plus => true
  | .qmark => true
  | .rep _ _ => true
  | _ => false

/-- A (reversed) run of concatenated units as a regex. -/
def catToRegex (cat : List Regex) : Regex :=
  cat.reverse.foldr Regex.seq .eps

/-- Alternatives in priority order, highest first; a single alternative
stays bare. -/
def combineAlts : List Regex → Regex
  | [] => .eps
  | [r] => r
  | r :: rest => .alt r (combineAlts rest)

/-- One pass over the token list building the regex.  State: whether group 1
has been assigned (the syntactically first `(` is group 1; later groups
compile to their bare contents); whether the previous token was a quantifier
(a second one is Python's "multiple repeat" error — this also puts Python's
lazy `*?` outside the model); a stack of suspended enclosing groups, each
with its finished alternatives and current run; and the finished
alternatives and current run at this nesting level (in reverse order).
Python's error cases return `none`: a quantifier with nothing to repeat,
unbalanced parentheses. -/
def rparseLoop : List RTok → Bool → Bool →
    List (Bool × List Regex × List Regex) → List Regex → List Regex → Option Regex
  | [], _, _, stack, alts, cat =>
    match stack with
    | [] => some (combineAlts (catToRegex cat :: alts).reverse)
    | _ => none
  | t :: rest, capT, justQ, stack, alts, cat =>
    if t.isQuant then
      if justQ then none
      else
        match cat with
        | [] => none
        | a :: cat2 =>
          match applyQuant a t with
          | none => none
          | some a2 => rparseLoop rest capT true stack alts (a2 :: cat2)
    else
      match t with
      | .lit c => rparseLoop rest capT false stack alts (.char c :: cat)
      | .wsCls => rparseLoop rest capT false stack alts (.wsc :: cat)
      | .clsT neg items => rparseLoop rest capT false stack alts (.cls neg items :: cat)
      | .altT => rparseLoop rest capT false stack (catToRegex cat :: alts) []
      | .lpar => rparseLoop rest true false ((!capT, alts, cat) :: stack) [] []
      | .rpar =>
        match stack with
        | [] => none
        | (isCap, palts, pcat) :: stack2 =>
          let inner := combineAlts (catToRegex cat :: alts).reverse
          rparseLoop rest capT false stack2 palts
            ((if isCap then Regex.group inner else inner) :: pcat)
      | _ => none

/-- Parse a token list into a regex. -/
def rparse (toks : List RTok) : Option Regex :=
  rparseLoop toks false false [] [] []

/-- Compile a pattern string. -/
def compileRe (p : Str) : Option Regex :=
  (rlex p).bind rparse

/-- Combine the captures of an earlier and a later sub-match: group 1 keeps
the value of its latest participation (under a repetition the last iteration
wins, as in Python), and an earlier value is kept otherwise. -/
def mergeCap : Option Str → Option Str → Option Str
  | x, none => x
  | _, some y => some y

/-- One level of the backtracking matcher.  `rec` is the matcher available to
a star's continuation (one fuel unit lower).  Each element of the result is
`(consumed, captured, rest)`; the list is in Python `re` backtracking priority
order: alternatives left first, a star tries longer (more iterations) first,
and only iterations that consume at least one character continue (Python
likewise stops repeating once an iteration matches empty). -/
def mlStep (rec : Regex → Str → List (Str × Option Str × Str)) :
    Regex → Str → List (Str × Option Str × Str)
  | .eps, s => [([], none, s)]
  | .char c, s =>
    match s with
    | [] => []
    | d :: rest => if d = c then [([d], none, rest)] else []
  | .wsc, s =>
    match s with
    | [] => []
    | d :: rest => if pyIsSpace d then [([d], none, rest)] else []
  | .cls neg items, s =>
    match s with
    | [] => []
    | d :: rest => if clsMatch neg items d then [([d], none, rest)] else []
  | .alt a b, s => mlStep rec a s ++ mlStep rec b s
  | .star a, s =>
    ((mlStep rec a s).filter (fun t => t.1 ≠ [])).flatMap
      (fun t =>
        (rec (.star a) t.2.2).map
          (fun u => (t.1 ++ u.1, mergeCap t.2.1 u.2.1, u.2.2)))
      ++ [([], none, s)]
  | .seq a b, s =>
    (mlStep rec a s).flatMap
      (fun t =>
        (mlStep rec b t.2.2).map
          (fun u => (t.1 ++ u.1, mergeCap t.2.1 u.2.1, u.2.2)))
  | .group a, s => (mlStep rec a s).map (fun t => (t.1, some t.1, t.2.2))

/-- The fueled matcher.  Fuel only limits star iterations; since every
continued iteration consumes at least one character, fuel `s.length + 1` is
never exhausted. -/
def Regex.mlF : Nat → Regex → Str → List (Str × Option Str × Str)
  | 0, _, _ => []
  | f + 1, r, s => mlStep (Regex.mlF f) r s

/-- Python `re.match(r, s)`: the first match in backtracking priority order,
anchored at the start of `s`. -/
def reMatch (r : Regex) (s : Str) : Option (Str × Option Str × Str) :=
  (Regex.mlF (s.length + 1) r s).head?

/-- `tokenizer % atom`, i.e. `grammar[' '] + '(' + atom + ')'`. -/
def tokPattern (ws atom : Str) : Str :=
  ws ++ '(' :: (atom ++ [')'])

/-- Match a terminal atom against the start of `text`:
`m = re.match(tokenizer % atom, text)`; on success return
`(m.group(1), text[m.end():])`, else `Fail`.  When the match succeeds but
group 1 did not participate (a top-level alternative outside the wrapper
matched, e.g. atom `x)|(y` on text `y`), `m.group(1)` is `None` and the
result is `(None, remainder)` — a success, exactly as in Python.  A pattern
that does not compile in the model is mapped to `Fail`: for genuinely
malformed patterns Python raises `re.error`; the model's few
unsupported-but-valid constructs (alphanumeric escapes such as `\d`, lazy
quantifiers, anchors) put a pattern outside the embedding — none occur in
this repository. -/
def matchTok (ws atom text : Str) : Res :=
  match compileRe (tokPattern ws atom) with
  | none => Fail
  | some r =>
    match reMatch r text with
    | none => Fail
    | some (_, some g, rest) => (.str g, some rest)
    | some (_, none, rest) => (.none_, some rest)

/-- The shape of a compiled tokenizer pattern `ws(atom)`: the whitespace
part (a single possibly-quantified unit, or empty) followed by the capturing
group around the atom's regex.  A whitespace pattern containing its own
parentheses falls outside this shape — there the tokenizer pattern is not
"the atom's regex wrapped in the capturing group" (in Python, group 1 would
sit inside the whitespace pattern). -/
def tokSplit : Regex → Option (Regex × Regex)
  | .seq (.group m) .eps => some (.eps, m)
  | .seq a (.seq (.group m) .eps) => some (a, m)
  | _ => none

/-- The whitespace pattern of a grammar, `grammar[' ']` (a grammar built by
`grammar` always has this entry; on a grammar without it Python's `parse`
would raise a `KeyError` before matching anything). -/
def wsOf (G : Grammar) : Str :=
  match dictFind G spaceKey with
  | some (.wsE p) => p
  | _ => []

/-- The alternatives `parse_atom` iterates for a grammar entry.  For a rule
entry they are the stored tuple.  For the reserved whitespace entry (reachable
only when the start symbol is `' '`, since rule atoms never equal `' '`),
Python iterates the pattern *string*: each character is an "alternative", and
`parse_sequence` then iterates that one-character string, yielding a single
one-character atom. -/
def entryAlts : GEntry → List (List Str)
  | .rulesE alts => alts
  | .wsE p => p.map (fun c => [[c]])

/-- The loop of `parse_sequence(sequence, text)`: call `parse_atom` on each
atom, threading the remainder; on a `None` remainder return `Fail` at once,
else append the tree to the accumulated `result` list.  `pa` is `parse_atom`
at the current fuel; the outer `none` means out of fuel. -/
def seqRun (pa : Str → Str → Option Res) : List Str → Str → List PVal → Option Res
  | [], text, acc => some (.list acc, some text)
  | a :: rest, text, acc =>
    match pa a text with
    | none => none
    | some (_, none) => some Fail
    | some (t, some t2) => seqRun pa rest t2 (acc ++ [t])

/-- The loop of the non-terminal branch of `parse_atom`: try each alternative
with `parse_sequence`; return `[atom] + tree, rem` for the first whose
remainder is not `None`; if none succeeds return `Fail`. -/
def altsRun (ps : List Str → Str → Option Res) (atom : Str) :
    List (List Str) → Str → Option Res
  | [], _ => some Fail
  | alt :: rest, text =>
    match ps alt text with
    | none => none
    | some (t, some r) => some (pyCons (.str atom) t, some r)
    | some (_, none) => altsRun ps atom rest text

/-- `parse_atom(atom, text)`, fueled: if `atom` is a key of the grammar,
try its alternatives in stored order; else match it as a terminal token
anchored at the start of `text`. -/
def parse_atom (G : Grammar) : Nat → Str → Str → Option Res
  | 0, _, _ => none
  | f + 1, atom, text =>
    match dictFind G atom with
    | some e => altsRun (fun alt t => seqRun (parse_atom G f) alt t []) atom (entryAlts e) text
    | none => some (matchTok (wsOf G) atom text)

/-- `parse_sequence(sequence, text)` with `parse_atom` at fuel `f`. -/
def parse_sequence (G : Grammar) (f : Nat) (sequence : List Str) (text : Str) : Option Res :=
  seqRun (parse_atom G f) sequence text []

/-- `parse(start_symbol, text, grammar)`: the body just calls
`parse_atom(start_symbol, text)`. -/
def parse (start_symbol text : Str) (G : Grammar) (fuel : Nat) : Option Res :=
  parse_atom G fuel start_symbol text

/-- The memo cache of one `parse` call: a dict keyed by the argument pair
`(atom, text)` (content equality, as for Python string keys). -/
abbrev Cache := List ((Str × Str) × Res)

/-- Cache lookup. -/
def lookupC (c : Cache) (k : Str × Str) : Option Res :=
  match c with
  | [] => none
  | (k', v) :: rest => if k' = k then some v else lookupC rest k

/-- Cache store `cache[args] = result` (dict assignment). -/
def insertC (c : Cache) (k : Str × Str) (v : Res) : Cache :=
  match c with
  | [] => [(k, v)]
  | (k', v') :: rest => if k' = k then (k, v) :: rest else (k', v') :: insertC rest k v

/-- `parse_sequence` with the cache threaded through its `parse_atom` calls
(the Python cache is a mutable dict shared by the whole `parse` call). -/
def seqRunM (pa : Str → Str → Cache → Option (Res × Cache)) :
    List Str → Str → List PVal → Cache → Option (Res × Cache)
  | [], text, acc, c => some ((.list acc, some text), c)
  | a :: rest, text, acc, c =>
    match pa a text c with
    | none => none
    | some ((_, none), c2) => some (Fail, c2)
    | some ((t, some t2), c2) => seqRunM pa rest t2 (acc ++ [t]) c2

/-- The alternatives loop with the cache threaded through. -/
def altsRunM (ps : List Str → Str → Cache → Option (Res × Cache)) (atom : Str) :
    List (List Str) → Str → Cache → Option (Res × Cache)
  | [], _, c => some (Fail, c)
  | alt :: rest, text, c =>
    match ps alt text c with
    | none => none
    | some ((t, some r), c2) => some ((pyCons (.str atom) t, some r), c2)
    | some ((_, none), c2) => altsRunM ps atom rest text c2

/-- `parse_atom` as decorated by `memo`: look the argument pair up in the
cache; on a miss compute as `parse_atom` does (nested calls sharing the
cache) and then store `cache[args] = result`. -/
def parse_atomM (G : Grammar) : Nat → Str → Str → Cache → Option (Res × Cache)
  | 0, _, _, _ => none
  | f + 1, atom, text, c =>
    match lookupC c (atom, text) with
    | some v => some (v, c)
    | none =>
      match dictFind G atom with
      | some e =>
        match altsRunM (fun alt t c2 => seqRunM (parse_atomM G f) alt t [] c2)
            atom (entryAlts e) text c with
        | none => none
        | some (v, c2) => some (v, insertC c2 (atom, text) v)
      | none =>
        let v := matchTok (wsOf G) atom text
        some (v, insertC c (atom, text) v)

/-- `parse` with the memo cache enabled, starting from an empty cache. -/
def parseM (start_symbol text : Str) (G : Grammar) (fuel : Nat) : Option (Res × Cache) :=
  parse_atomM G fuel start_symbol text []

/-- `parse_atom(atom, text)` terminates with result `v` (at some fuel; by
monotonicity the result at every sufficient fuel).  This is the (partial)
value of the unfueled Python function. -/
def ConvA (G : Grammar) (atom text : Str) (v : Res) : Prop :=
  ∃ f, parse_atom G f atom text = some v

/-- Every cache entry is the true (converged) `parse_atom` value for its key:
the invariant the memo dict maintains. -/
def CacheOK (G : Grammar) (c : Cache) : Prop :=
  ∀ a t v, lookupC c (a, t) = some v → ConvA G a t v

/-- A successful step-by-step run of a sequence of atoms: each atom matches
with a tree and a remainder, which is threaded into the next atom. -/
inductive SeqSteps (pa : Str → Str → Option Res) : List Str → Str → List PVal → Str → Prop where
  | nil : ∀ text, SeqSteps pa [] text [] text
  | cons : ∀ a as text t r ts r', pa a text = some (t, some r) →
      SeqSteps pa as r ts r' → SeqSteps pa (a :: as) text (t :: ts) r'

/-- `s` is fully matched by the regex `r` (some backtracking path consumes all
of `s`). -/
def FullMatch (r : Regex) (s : Str) : Prop :=
  ∃ f g, (s, g, ([] : Str)) ∈ Regex.mlF f r s

/-- The grammar has its reserved whitespace entry (true of every grammar the
compiler returns; Python's `parse` raises a `KeyError` otherwise). -/
def HasWs (G : Grammar) : Prop :=
  ∃ p, dictFind G spaceKey = some (.wsE p)

/-- A grammar with only the whitespace entry (all atoms are terminals). -/
def GwT : Grammar := [(spaceKey, .wsE defaultWs)]

/-- A grammar with one rule `S => x | y`. -/
def GwS : Grammar := [(spaceKey, .wsE defaultWs), ("S".data, .rulesE [["x".data], ["y".data]])]

/-- The compiled grammar of `"value => \"a\" | \"b\""`. -/
def G6 : Grammar :=
  [(spaceKey, .wsE defaultWs), ("value".data, .rulesE [["\"a\"".data], ["\"b\"".data]])]

/-- The compiled grammar of `"x => y"`. -/
def G5w : Grammar := [(spaceKey, .wsE defaultWs), ("x".data, .rulesE [["y".data]])]

/-- The compiled grammar of `"a => b"`. -/
def G10w : Grammar := [(spaceKey, .wsE defaultWs), ("a".data, .rulesE [["b".data]])]

/-- The compiled grammar of `"a => b\na => c"` (the second line overwrote the
first). -/
def G5cex : Grammar := [(spaceKey, .wsE defaultWs), ("a".data, .rulesE [["c".data]])]

/-! ## Lemmas about the grammar compiler -/

theorem dropWhile_head_false {p : Char → Bool} :
    ∀ (l : Str) (x : Char) (xs : Str), l.dropWhile p = x :: xs → p x = false := by
  intro l
  induction l with
  | nil => intro x xs h; simp [List.dropWhile] at h
  | cons c cs ih =>
    intro x xs h
    by_cases hc : p c
    · rw [List.dropWhile_cons_of_pos hc] at h; exact ih x xs h
    · rw [List.dropWhile_cons_of_neg hc] at h
      cases h; simpa using hc

theorem pyStrip_ne_spaceKey (s : Str) : pyStrip s ≠ spaceKey := by
  intro h
  unfold pyStrip at h
  have h' : ((s.dropWhile pyIsSpace).reverse.dropWhile pyIsSpace) = [' '] := by
    have := congrArg List.reverse h
    simpa [spaceKey] using this
  have := dropWhile_head_false _ _ _ h'
  simp [pyIsSpace] at this

theorem mem_pySplitPost {x : Str} {l : List Str} (h : x ∈ pySplitPost l) :
    ∃ y, x = pyStrip y := by
  unfold pySplitPost at h
  obtain ⟨y, _, rfl⟩ := List.mem_map.mp h
  exact ⟨y, rfl⟩

theorem dictFind_insert_self (G : Grammar) (k : Str) (v : GEntry) :
    dictFind (dictInsert G k v) k = some v := by
  induction G with
  | nil => simp [dictInsert, dictFind]
  | cons p rest ih =>
    obtain ⟨k', v'⟩ := p
    by_cases hk : k' = k
    · simp [dictInsert, dictFind, hk]
    · simp [dictInsert, dictFind, hk, ih]

theorem dictFind_insert_ne (G : Grammar) {k k' : Str} (v : GEntry) (h : k' ≠ k) :
    dictFind (dictInsert G k v) k' = dictFind G k' := by
  have hk : ¬ k = k' := fun hh => h hh.symm
  induction G with
  | nil => simp [dictInsert, dictFind, hk]
  | cons p rest ih =>
    obtain ⟨a, b⟩ := p
    by_cases ha : a = k
    · subst ha
      simp only [dictInsert, if_pos rfl]
      simp [dictFind, hk]
    · simp only [dictInsert, if_neg ha]
      by_cases hb : a = k'
      · simp [dictFind, hb]
      · simp [dictFind, hb, ih]

theorem mem_dictInsert {p : Str × GEntry} {G : Grammar} {k : Str} {v : GEntry}
    (h : p ∈ dictInsert G k v) : p ∈ G ∨ p = (k, v) := by
  induction G with
  | nil => simp [dictInsert] at h; right; exact h
  | cons q rest ih =>
    obtain ⟨a, b⟩ := q
    by_cases ha : a = k
    · simp only [dictInsert, if_pos ha] at h
      rcases List.mem_cons.mp h with h1 | h1
      · right; exact h1
      · left; exact List.mem_cons_of_mem _ h1
    · simp only [dictInsert, if_neg ha] at h
      rcases List.mem_cons.mp h with h1 | h1
      · left; exact h1 ▸ List.mem_cons_self _ _
      · rcases ih h1 with h2 | h2
        · left; exact List.mem_cons_of_mem _ h2
        · right; exact h2

theorem gramLoop_space {ws : Str} :
    ∀ (lines : List Str) (G₁ G : Grammar), gramLoop lines G₁ = .ok G →
    dictFind G₁ spaceKey = some (.wsE ws) →
    (∀ e, (spaceKey, e) ∈ G₁ → e = .wsE ws) →
    dictFind G spaceKey = some (.wsE ws) ∧ ∀ e, (spaceKey, e) ∈ G → e = .wsE ws := by
  intro lines
  induction lines with
  | nil =>
    intro G₁ G h h1 h2
    simp only [gramLoop] at h
    cases h
    exact ⟨h1, h2⟩
  | cons line rest ih =>
    intro G₁ G h h1 h2
    simp only [gramLoop] at h
    cases hp : pySplit1 sepArrow line with
    | nil => rw [hp] at h; cases h
    | cons x xs =>
      cases xs with
      | nil => rw [hp] at h; cases h
      | cons y ys =>
        cases ys with
        | nil =>
          rw [hp] at h
          have hx : x ≠ spaceKey := by
            have hxm : x ∈ pySplit1 sepArrow line := by rw [hp]; simp
            obtain ⟨w, rfl⟩ := mem_pySplitPost hxm
            exact pyStrip_ne_spaceKey w
          refine ih _ _ h ?_ ?_
          · rw [dictFind_insert_ne _ _ (fun hh => hx hh.symm)]; exact h1
          · intro e he
            rcases mem_dictInsert he with h3 | h3
            · exact h2 e h3
            · exact absurd (congrArg Prod.fst h3).symm hx
        | cons z zs => rw [hp] at h; cases h

theorem gramLoop_error :
    ∀ (lines : List Str) (G₁ : Grammar),
    (∃ line ∈ lines, (pySplit1 sepArrow line).length ≠ 2) →
    ∃ e, gramLoop lines G₁ = .error e := by
  intro lines
  induction lines with
  | nil => intro G₁ h; obtain ⟨line, hm, _⟩ := h; cases hm
  | cons l rest ih =>
    intro G₁ h
    cases hp : pySplit1 sepArrow l with
    | nil => exact ⟨⟨2, 0⟩, by simp [gramLoop, hp]⟩
    | cons x xs =>
      cases xs with
      | nil => exact ⟨⟨2, 1⟩, by simp [gramLoop, hp]⟩
      | cons y ys =>
        cases ys with
        | nil =>
          obtain ⟨line, hm, hlen⟩ := h
          rcases List.mem_cons.mp hm with rfl | hm'
          · rw [hp] at hlen; simp at hlen
          · obtain ⟨e, he⟩ := ih (dictInsert G₁ x (.rulesE (rhsAlts y))) ⟨line, hm', hlen⟩
            exact ⟨e, by simp [gramLoop, hp, he]⟩
        | cons z zs =>
          exact ⟨⟨2, (x :: y :: z :: zs).length⟩, by simp [gramLoop, hp]⟩

theorem gramLoop_find_preserved {lhs : Str} :
    ∀ (lines : List Str) (Gm G : Grammar), gramLoop lines Gm = .ok G →
    (∀ l' ∈ lines, ∀ rhs', pySplit1 sepArrow l' ≠ [lhs, rhs']) →
    dictFind G lhs = dictFind Gm lhs := by
  intro lines
  induction lines with
  | nil =>
    intro Gm G h _
    simp only [gramLoop] at h; cases h; rfl
  | cons l rest ih =>
    intro Gm G h hno
    simp only [gramLoop] at h
    cases hp : pySplit1 sepArrow l with
    | nil => rw [hp] at h; cases h
    | cons x xs =>
      cases xs with
      | nil => rw [hp] at h; cases h
      | cons y ys =>
        cases ys with
        | nil =>
          rw [hp] at h
          have hxl : x ≠ lhs := by
            intro hx
            exact hno l (List.mem_cons_self _ _) y (by rw [hp, hx])
          rw [ih _ _ h (fun l' hl' => hno l' (List.mem_cons_of_mem _ hl'))]
          exact dictFind_insert_ne _ _ (Ne.symm hxl)
        | cons z zs => rw [hp] at h; cases h

theorem gramLoop_ok_line :
    ∀ (L1 : List Str) (lines : List Str) (G₁ G : Grammar) (line : Str) (L2 : List Str),
    gramLoop lines G₁ = .ok G → lines = L1 ++ line :: L2 →
    ∃ lhs rhs, pySplit1 sepArrow line = [lhs, rhs] ∧
      ((∀ l' ∈ L2, ∀ rhs', pySplit1 sepArrow l' ≠ [lhs, rhs']) →
        dictFind G lhs = some (.rulesE (rhsAlts rhs))) := by
  intro L1
  induction L1 with
  | nil =>
    intro lines G₁ G line L2 h hl
    subst hl
    simp only [gramLoop, List.nil_append] at h
    cases hp : pySplit1 sepArrow line with
    | nil => rw [hp] at h; cases h
    | cons x xs =>
      cases xs with
      | nil => rw [hp] at h; cases h
      | cons y ys =>
        cases ys with
        | nil =>
          rw [hp] at h
          refine ⟨x, y, rfl, fun hno => ?_⟩
          rw [gramLoop_find_preserved _ _ _ h hno]
          exact dictFind_insert_self _ _ _
        | cons z zs => rw [hp] at h; cases h
  | cons l L1' ih =>
    intro lines G₁ G line L2 h hl
    subst hl
    simp only [gramLoop, List.cons_append] at h
    cases hp : pySplit1 sepArrow l with
    | nil => rw [hp] at h; cases h
    | cons x xs =>
      cases xs with
      | nil => rw [hp] at h; cases h
      | cons y ys =>
        cases ys with
        | nil => rw [hp] at h; exact ih _ _ _ _ _ h rfl
        | cons z zs => rw [hp] at h; cases h

/-! ## Claim C10: the reserved whitespace key is never overwritten -/

/-- C10: for every description string accepted by the compiler, no rule entry
is stored under the reserved single-space whitespace key — every stored
left-hand symbol is stripped of surrounding whitespace (so it can never be
the string `' '`), and hence no description can overwrite the
whitespace-pattern entry. -/
theorem reserved_key_safety :
    ∀ (description ws : Str) (G : Grammar), grammar description ws = .ok G →
    dictFind G spaceKey = some (.wsE ws) ∧ ∀ e, (spaceKey, e) ∈ G → e = .wsE ws := by
  intro description ws G h
  unfold grammar at h
  refine gramLoop_space _ _ _ h (by simp [dictFind]) ?_
  intro e he
  rcases List.mem_cons.mp he with h1 | h1
  · cases h1; rfl
  · cases h1

/-- Witness for C10 at the concrete description `"a => b"`. -/
theorem reserved_key_safety_witness :
    dictFind G10w spaceKey = some (.wsE defaultWs) :=
  (reserved_key_safety ("a => b".data) defaultWs G10w rfl).1

/-! ## Claim C7: malformed rule lines -/

/-- C7 (counterexample): two different descriptions whose single line lacks
the ` => ` separator produce the *identical* error value — the `ValueError`
raised by tuple unpacking reports only the piece count, never the offending
line's content, refuting the claim that the error reports the line. -/
theorem compile_error_lacks_line :
    grammar ("lineone".data) defaultWs = .error ⟨2, 1⟩ ∧
    grammar ("linetwo".data) defaultWs = .error ⟨2, 1⟩ ∧
    ("lineone".data : Str) ≠ ("linetwo".data : Str) :=
  ⟨rfl, rfl, by decide⟩

/-- C7 (amended): for every description containing a rule line that lacks the
` => ` separator (an empty right-hand side reduces to this case, since lines
are stripped), the compiler fails fast with an error rather than returning a
grammar; the error carries the unpacking counts, not the line's content. -/
theorem compile_fails_fast :
    ∀ (description ws : Str),
    (∃ line ∈ gramLines description, (pySplit1 sepArrow line).length ≠ 2) →
    ∃ e, grammar description ws = .error e := by
  intro description ws h
  unfold grammar
  exact gramLoop_error _ _ h

/-- Witness for C7 at the concrete description `"a => b\nbad"`. -/
theorem compile_fails_fast_witness :
    ∃ e, grammar ("a => b\nbad".data) defaultWs = .error e :=
  compile_fails_fast ("a => b\nbad".data) defaultWs ⟨"bad".data, by decide, by decide⟩

/-! ## Claim C5: what the compiler computes -/

/-- C5 (counterexample): the claim says the compiler "maps each rule line's
left-hand symbol to the tuple of alternatives obtained from (that line's)
right-hand side".  For the description `"a => b\na => c"` the first line's
symbol `a` is mapped to the *second* line's alternatives (dict assignment
overwrites), not to `rhsAlts "b"`. -/
theorem duplicate_lhs_overwrites :
    grammar ("a => b\na => c".data) defaultWs = .ok G5cex ∧
    ("a => b".data) ∈ gramLines ("a => b\na => c".data) ∧
    pySplit1 sepArrow ("a => b".data) = ["a".data, "b".data] ∧
    dictFind G5cex ("a".data) ≠ some (.rulesE (rhsAlts ("b".data))) :=
  ⟨rfl, by decide, rfl, by decide⟩

/-- C5 (amended): for every description the compiler accepts, it returns a
mapping whose reserved single-space key holds the whitespace pattern, and
every rule line splits on ` => ` into `[lhs, rhs]`; when no later line reuses
the same left-hand symbol (later lines overwrite earlier ones, dict-style),
`lhs` is mapped to the tuple of alternatives obtained by splitting `rhs` on
` | ` and splitting each alternative on whitespace with empty tokens
discarded.  The compiler is a pure function of its inputs (it is a Lean
function; no state is read or written). -/
theorem compile_maps_lines :
    ∀ (description ws : Str) (G : Grammar), grammar description ws = .ok G →
    dictFind G spaceKey = some (.wsE ws) ∧
    ∀ L1 line L2, gramLines description = L1 ++ line :: L2 →
      ∃ lhs rhs, pySplit1 sepArrow line = [lhs, rhs] ∧
        ((∀ l' ∈ L2, ∀ rhs', pySplit1 sepArrow l' ≠ [lhs, rhs']) →
          dictFind G lhs = some (.rulesE (rhsAlts rhs))) := by
  intro description ws G h
  refine ⟨(reserved_key_safety _ _ _ h).1, ?_⟩
  intro L1 line L2 hl
  unfold grammar at h
  exact gramLoop_ok_line L1 _ _ _ line L2 h hl

/-- Witness for C5 at the concrete description `"x => y"`. -/
theorem compile_maps_lines_witness :
    dictFind G5w spaceKey = some (.wsE defaultWs) ∧
    dictFind G5w ("x".data) = some (.rulesE (rhsAlts ("y".data))) := by
  have h := compile_maps_lines ("x => y".data) defaultWs G5w rfl
  refine ⟨h.1, ?_⟩
  obtain ⟨lhs, rhs, hsplit, himp⟩ := h.2 [] ("x => y".data) [] rfl
  have hs : (["x".data, "y".data] : List Str) = [lhs, rhs] := by
    rw [← hsplit]; rfl
  have h1 : ("x".data : Str) = lhs := by injection hs
  have h2 : ("y".data : Str) = rhs := by
    have hs' := hs; injection hs' with _ h3; injection h3
  rw [← h1, ← h2] at himp
  exact himp (by intro l' hl'; cases hl')

/-! ## Claim C6: the spec's example scenario -/

/-- C6 (counterexample): with `G = compile("value => \"a\" | \"b\"")`, the call
`parse("value", "a", G)` does *not* return the tree `["value", "a"]` with
remainder `""` — the atom `"a"` is a three-character regex including the
quote characters, the one-character text `a` does not match it, and the
parse returns `(None, None)`. -/
theorem spec_example_unquoted_fails :
    grammar ("value => \"a\" | \"b\"".data) defaultWs = .ok G6 ∧
    parse ("value".data) ("a".data) G6 3 = some Fail ∧
    some Fail ≠
      some ((PVal.list [PVal.str ("value".data), PVal.str ("a".data)], some ([] : Str)) : Res) := by
  refine ⟨rfl, rfl, ?_⟩
  intro h
  injection h with h1
  injection h1 with h2 _
  exact PVal.noConfusion h2

/-- C6 (amended): with `G = compile("value => \"a\" | \"b\"")`, parsing the
*quoted* text `"a"` returns the tree `["value", "\"a\""]` with remainder `""`
(and `parse("value", "c", G)` returns `(None, None)`, as the claim states). -/
theorem spec_example_behaviour :
    grammar ("value => \"a\" | \"b\"".data) defaultWs = .ok G6 ∧
    parse ("value".data) ("\"a\"".data) G6 3 =
      some (.list [.str ("value".data), .str ("\"a\"".data)], some ([] : Str)) ∧
    parse ("value".data) ("c".data) G6 3 = some Fail :=
  ⟨rfl, rfl, rfl⟩

/-! ## Lemmas about the alternatives and sequence loops -/

theorem seqRun_acc_list {pa : Str → Str → Option Res} :
    ∀ (atoms : List Str) (text : Str) (acc : List PVal) (t : PVal) (r : Str),
    seqRun pa atoms text acc = some (t, some r) → ∃ kids, t = .list (acc ++ kids) := by
  intro atoms
  induction atoms with
  | nil =>
    intro text acc t r h
    simp only [seqRun] at h
    cases h
    exact ⟨[], by simp⟩
  | cons a rest ih =>
    intro text acc t r h
    simp only [seqRun] at h
    cases hpa : pa a text with
    | none => rw [hpa] at h; cases h
    | some w =>
      obtain ⟨tw, rw⟩ := w
      cases rw with
      | none => rw [hpa] at h; simp [Fail] at h
      | some t2 =>
        rw [hpa] at h
        obtain ⟨kids, hk⟩ := ih t2 (acc ++ [tw]) t r h
        exact ⟨tw :: kids, by simpa using hk⟩

theorem altsRun_first_success {ps : List Str → Str → Option Res} {atom : Str} :
    ∀ (pre : List (List Str)) (alt : List Str) (post : List (List Str)) (text : Str)
      (t : PVal) (r : Str),
    (∀ a ∈ pre, ∃ t', ps a text = some (t', none)) →
    ps alt text = some (t, some r) →
    altsRun ps atom (pre ++ alt :: post) text = some (pyCons (.str atom) t, some r) := by
  intro pre
  induction pre with
  | nil =>
    intro alt post text t r _ hs
    simp only [List.nil_append, altsRun, hs]
  | cons p pre' ih =>
    intro alt post text t r hf hs
    obtain ⟨t', ht'⟩ := hf p (List.mem_cons_self _ _)
    simp only [List.cons_append, altsRun, ht']
    exact ih alt post text t r (fun a ha => hf a (List.mem_cons_of_mem _ ha)) hs

theorem altsRun_all_fail {ps : List Str → Str → Option Res} {atom : Str} :
    ∀ (alts : List (List Str)) (text : Str),
    (∀ a ∈ alts, ∃ t', ps a text = some (t', none)) →
    altsRun ps atom alts text = some Fail := by
  intro alts
  induction alts with
  | nil => intro text _; rfl
  | cons p rest ih =>
    intro text hf
    obtain ⟨t', ht'⟩ := hf p (List.mem_cons_self _ _)
    simp only [altsRun, ht']
    exact ih text (fun a ha => hf a (List.mem_cons_of_mem _ ha))

/-! ## Claim C1: ordered choice among alternatives -/

/-- C1: for every grammar, non-terminal atom (a key of the grammar mapping)
and input text, `parse_atom` tries the stored alternatives in order and
returns, for the first alternative whose remainder is not failure, the tree
`[atom, ...children]` paired with that remainder — regardless of what any
later alternative would produce; if every alternative fails it returns
`Fail`.  (For the reserved `' '` key, `entryAlts` spells out the alternatives
Python's iteration of the stored pattern string yields.) -/
theorem atom_ordered_choice :
    ∀ (G : Grammar) (f : Nat) (atom text : Str) (e : GEntry),
    dictFind G atom = some e →
    (∀ pre alt post t r, entryAlts e = pre ++ alt :: post →
      (∀ a ∈ pre, ∃ t', parse_sequence G f a text = some (t', none)) →
      parse_sequence G f alt text = some (t, some r) →
      ∃ kids, t = .list kids ∧
        parse_atom G (f + 1) atom text = some (.list (.str atom :: kids), some r)) ∧
    ((∀ a ∈ entryAlts e, ∃ t', parse_sequence G f a text = some (t', none)) →
      parse_atom G (f + 1) atom text = some Fail) := by
  intro G f atom text e he
  have h1 : parse_atom G (f + 1) atom text =
      altsRun (parse_sequence G f) atom (entryAlts e) text := by
    simp only [parse_atom, he]
    rfl
  constructor
  · intro pre alt post t r halts hf hs
    obtain ⟨kids, hk⟩ := seqRun_acc_list alt text [] t r hs
    refine ⟨kids, by simpa using hk, ?_⟩
    rw [h1, halts, altsRun_first_success pre alt post text t r hf hs, hk]
    simp [pyCons]
  · intro hf
    rw [h1, altsRun_all_fail _ text hf]

/-- Witness for C1: in the grammar `S => x | y` on text `y`, the first
alternative fails, so the second one's derivation is returned; on text `z`
both fail and the result is `Fail`. -/
theorem atom_ordered_choice_witness :
    parse_atom GwS 2 ("S".data) ("y".data) =
      some (.list [.str ("S".data), .str ("y".data)], some ([] : Str)) ∧
    parse_atom GwS 2 ("S".data) ("z".data) = some Fail := by
  constructor
  · obtain ⟨kids, hk, hres⟩ :=
      (atom_ordered_choice GwS 1 ("S".data) ("y".data) _ rfl).1
        [["x".data]] ["y".data] [] (.list [.str ("y".data)]) ([] : Str) rfl
        (by
          intro a ha
          have ha' : a = ["x".data] := by simpa using ha
          exact ⟨.none_, by rw [ha']; rfl⟩)
        rfl
    have hk' : kids = [PVal.str ("y".data)] := by
      injection hk with hk2
      exact hk2.symm
    rw [hk'] at hres
    exact hres
  · exact (atom_ordered_choice GwS 1 ("S".data) ("z".data) _ rfl).2
      (by
        intro a ha
        have ha' : a = ["x".data] ∨ a = ["y".data] := by simpa [entryAlts] using ha
        rcases ha' with rfl | rfl
        · exact ⟨.none_, rfl⟩
        · exact ⟨.none_, rfl⟩)

/-! ## Claim C2: sequence matching -/

theorem seqSteps_run {pa : Str → Str → Option Res} :
    ∀ {atoms : List Str} {text : Str} {ts : List PVal} {r : Str},
    SeqSteps pa atoms text ts r →
    ∀ acc, seqRun pa atoms text acc = some (.list (acc ++ ts), some r) := by
  intro atoms text ts r h
  induction h with
  | nil t => intro acc; simp [seqRun]
  | cons a as text t r ts r' hpa _ ih =>
    intro acc
    simp only [seqRun, hpa]
    rw [ih (acc ++ [t])]
    simp

theorem seqSteps_append_run {pa : Str → Str → Option Res} :
    ∀ {pre : List Str} {text : Str} {ts : List PVal} {r : Str},
    SeqSteps pa pre text ts r →
    ∀ (tail : List Str) (acc : List PVal),
    seqRun pa (pre ++ tail) text acc = seqRun pa tail r (acc ++ ts) := by
  intro pre text ts r h
  induction h with
  | nil t => intro tail acc; simp
  | cons a as text t r ts r' hpa _ ih =>
    intro tail acc
    show seqRun pa (a :: (as ++ tail)) text acc = seqRun pa tail r' (acc ++ t :: ts)
    simp only [seqRun, hpa]
    rw [ih tail (acc ++ [t])]
    simp

theorem seqSteps_length {pa : Str → Str → Option Res} :
    ∀ {atoms : List Str} {text : Str} {ts : List PVal} {r : Str},
    SeqSteps pa atoms text ts r → ts.length = atoms.length := by
  intro atoms text ts r h
  induction h with
  | nil t => rfl
  | cons a as text t r ts r' _ _ ih => simp [ih]

/-- C2: `parse_sequence` processes its atoms in order, accumulating exactly
one child tree per atom and threading each atom's remainder into the next
atom (first conjunct: a full step-by-step run yields the children list and
the last remainder); and as soon as any atom returns a `None` remainder the
whole sequence returns `Fail` immediately, whatever came before and whatever
atoms would follow — the partial matches are discarded and no earlier atom is
retried with a different match length (second conjunct: the result is `Fail`
for *every* suffix `post`, i.e. the failure does not depend on any further
exploration). -/
theorem sequence_threading :
    ∀ (G : Grammar) (f : Nat),
    (∀ atoms text ts r, SeqSteps (parse_atom G f) atoms text ts r →
      parse_sequence G f atoms text = some (.list ts, some r) ∧
        ts.length = atoms.length) ∧
    (∀ pre a post text ts r t, SeqSteps (parse_atom G f) pre text ts r →
      parse_atom G f a r = some (t, none) →
      parse_sequence G f (pre ++ a :: post) text = some Fail) := by
  intro G f
  constructor
  · intro atoms text ts r h
    refine ⟨?_, seqSteps_length h⟩
    have := seqSteps_run h []
    simpa [parse_sequence] using this
  · intro pre a post text ts r t hsteps hfail
    show seqRun (parse_atom G f) (pre ++ a :: post) text [] = some Fail
    rw [seqSteps_append_run hsteps (a :: post) []]
    simp [seqRun, hfail]

/-- Witness for C2: in a grammar with only terminals, the sequence
`["a", "b"]` on `" a b!"` threads the remainders and returns one child per
atom; inserting the failing atom `"x"` after `["a"]` makes the whole
sequence `["a", "x", "b"]` fail, discarding the partial match. -/
theorem sequence_threading_witness :
    parse_sequence GwT 1 ["a".data, "b".data] (" a b!".data) =
      some (.list [.str ("a".data), .str ("b".data)], some ("!".data)) ∧
    parse_sequence GwT 1 ["a".data, "x".data, "b".data] (" a b!".data) = some Fail := by
  have h1 : parse_atom GwT 1 ("a".data) (" a b!".data) =
      some (.str ("a".data), some (" b!".data)) := rfl
  have h2 : parse_atom GwT 1 ("b".data) (" b!".data) =
      some (.str ("b".data), some ("!".data)) := rfl
  have hsteps : SeqSteps (parse_atom GwT 1) ["a".data, "b".data] (" a b!".data)
      [.str ("a".data), .str ("b".data)] ("!".data) :=
    .cons _ _ _ _ _ _ _ h1 (.cons _ _ _ _ _ _ _ h2 (.nil _))
  constructor
  · exact ((sequence_threading GwT 1).1 _ _ _ _ hsteps).1
  · have hpre : SeqSteps (parse_atom GwT 1) ["a".data] (" a b!".data)
        [.str ("a".data)] (" b!".data) :=
      .cons _ _ _ _ _ _ _ h1 (.nil _)
    have hx : parse_atom GwT 1 ("x".data) (" b!".data) = some (.none_, none) := rfl
    exact (sequence_threading GwT 1).2 ["a".data] ("x".data) ["b".data] _ _ _ _ hpre hx

/-! ## Lemmas about the regex engine -/

theorem head?_mem {α : Type} {l : List α} {x : α} (h : l.head? = some x) : x ∈ l := by
  cases l with
  | nil => cases h
  | cons a t =>
    simp only [List.head?] at h
    cases h
    exact List.mem_cons_self _ _

theorem mlStep_suffix
    (rec : Regex → Str → List (Str × Option Str × Str))
    (hrec : ∀ r s t, t ∈ rec r s → t.1 ++ t.2.2 = s) :
    ∀ (r : Regex) (s : Str) (t : Str × Option Str × Str),
    t ∈ mlStep rec r s → t.1 ++ t.2.2 = s := by
  intro r
  induction r with
  | eps =>
    intro s t ht
    simp only [mlStep, List.mem_singleton] at ht
    subst ht; rfl
  | char c =>
    intro s t ht
    cases s with
    | nil => simp [mlStep] at ht
    | cons d rest =>
      simp only [mlStep] at ht
      by_cases hd : d = c
      · rw [if_pos hd] at ht
        simp only [List.mem_singleton] at ht
        subst ht; rfl
      · rw [if_neg hd] at ht; cases ht
  | wsc =>
    intro s t ht
    cases s with
    | nil => simp [mlStep] at ht
    | cons d rest =>
      simp only [mlStep] at ht
      by_cases hd : pyIsSpace d
      · rw [if_pos hd] at ht
        simp only [List.mem_singleton] at ht
        subst ht; rfl
      · rw [if_neg hd] at ht; cases ht
  | cls neg items =>
    intro s t ht
    cases s with
    | nil => simp [mlStep] at ht
    | cons d rest =>
      simp only [mlStep] at ht
      by_cases hd : clsMatch neg items d
      · rw [if_pos hd] at ht
        simp only [List.mem_singleton] at ht
        subst ht; rfl
      · rw [if_neg hd] at ht; cases ht
  | alt a b iha ihb =>
    intro s t ht
    simp only [mlStep, List.mem_append] at ht
    rcases ht with ht | ht
    · exact iha s t ht
    · exact ihb s t ht
  | star a iha =>
    intro s t ht
    simp only [mlStep, List.mem_append, List.mem_flatMap, List.mem_map,
      List.mem_filter, List.mem_singleton] at ht
    rcases ht with ⟨u, ⟨hu, _⟩, w, hw, rfl⟩ | rfl
    · have h1 := iha s u hu
      have h2 := hrec _ _ _ hw
      simp only []
      rw [List.append_assoc, h2, h1]
    · rfl
  | seq a b iha ihb =>
    intro s t ht
    simp only [mlStep, List.mem_flatMap, List.mem_map] at ht
    obtain ⟨u, hu, w, hw, rfl⟩ := ht
    have h1 := iha s u hu
    have h2 := ihb u.2.2 w hw
    simp only []
    rw [List.append_assoc, h2, h1]
  | group a iha =>
    intro s t ht
    simp only [mlStep, List.mem_map] at ht
    obtain ⟨u, hu, rfl⟩ := ht
    exact iha s u hu

theorem mlF_suffix :
    ∀ (f : Nat) (r : Regex) (s : Str) (t : Str × Option Str × Str),
    t ∈ Regex.mlF f r s → t.1 ++ t.2.2 = s := by
  intro f
  induction f with
  | zero => intro r s t ht; cases ht
  | succ f ih => exact mlStep_suffix (Regex.mlF f) ih

theorem matchTok_suffix {ws atom text : Str} {tr : PVal} {rest : Str}
    (h : matchTok ws atom text = (tr, some rest)) : rest <:+ text := by
  cases hc : compileRe (tokPattern ws atom) with
  | none => simp only [matchTok, hc] at h; simp [Fail] at h
  | some r =>
    cases hm : reMatch r text with
    | none => simp only [matchTok, hc, hm] at h; simp [Fail] at h
    | some trip =>
      obtain ⟨consumed, cap, rst⟩ := trip
      have hmem := head?_mem hm
      have hsuf := mlF_suffix _ r text _ hmem
      cases cap with
      | none =>
        simp only [matchTok, hc, hm] at h
        have hrst : rst = rest := by
          have h2 := congrArg Prod.snd h
          simpa using h2
        subst hrst
        exact ⟨consumed, hsuf⟩
      | some g =>
        simp only [matchTok, hc, hm] at h
        have hrst : rst = rest := by
          have h2 := congrArg Prod.snd h
          simpa using h2
        subst hrst
        exact ⟨consumed, hsuf⟩

/-- A `matchTok` result is `Fail`, a captured string plus a string remainder,
or — when the overall match succeeds but group 1 did not participate —
`None` plus a string remainder. -/
theorem matchTok_shape (ws atom text : Str) :
    matchTok ws atom text = Fail ∨
    (∃ cap rest, matchTok ws atom text = (.str cap, some rest)) ∨
    (∃ rest, matchTok ws atom text = (.none_, some rest)) := by
  cases hc : compileRe (tokPattern ws atom) with
  | none => left; simp only [matchTok, hc]
  | some r =>
    cases hm : reMatch r text with
    | none => left; simp only [matchTok, hc, hm]
    | some trip =>
      obtain ⟨consumed, cap, rst⟩ := trip
      cases cap with
      | none => right; right; exact ⟨rst, by simp only [matchTok, hc, hm]⟩
      | some g => right; left; exact ⟨g, rst, by simp only [matchTok, hc, hm]⟩

/-! ## Claim C4: the canonical failure value -/

theorem altsRun_shape {ps : List Str → Str → Option Res} {atom : Str}
    (hps : ∀ a text t r, ps a text = some (t, some r) → ∃ kids, t = .list kids) :
    ∀ (alts : List (List Str)) (text : Str) (v : Res),
    altsRun ps atom alts text = some v →
    v = Fail ∨ ∃ kids rem, v = (.list (.str atom :: kids), some rem) := by
  intro alts
  induction alts with
  | nil =>
    intro text v h
    simp only [altsRun] at h
    cases h; left; rfl
  | cons alt rest ih =>
    intro text v h
    simp only [altsRun] at h
    cases hp : ps alt text with
    | none => rw [hp] at h; cases h
    | some w =>
      obtain ⟨t, rw⟩ := w
      cases rw with
      | none => rw [hp] at h; exact ih text v h
      | some r =>
        rw [hp] at h
        cases h
        obtain ⟨kids, hk⟩ := hps alt text t r hp
        right
        exact ⟨kids, r, by rw [hk]; simp [pyCons]⟩

theorem seqRun_shape {pa : Str → Str → Option Res} :
    ∀ (atoms : List Str) (text : Str) (acc : List PVal) (v : Res),
    seqRun pa atoms text acc = some v →
    v = Fail ∨ ∃ ts rem, v = (.list ts, some rem) := by
  intro atoms
  induction atoms with
  | nil =>
    intro text acc v h
    simp only [seqRun] at h
    cases h
    right; exact ⟨acc, text, rfl⟩
  | cons a rest ih =>
    intro text acc v h
    simp only [seqRun] at h
    cases hp : pa a text with
    | none => rw [hp] at h; cases h
    | some w =>
      obtain ⟨t, rw⟩ := w
      cases rw with
      | none => rw [hp] at h; cases h; left; rfl
      | some t2 => rw [hp] at h; exact ih t2 (acc ++ [t]) v h

theorem parse_atom_shape (G : Grammar) :
    ∀ (f : Nat) (atom text : Str) (v : Res), parse_atom G f atom text = some v →
    v = Fail ∨ ∃ tr rem, v = (tr, some rem) := by
  intro f
  cases f with
  | zero => intro atom text v h; cases h
  | succ f =>
    intro atom text v h
    simp only [parse_atom] at h
    cases he : dictFind G atom with
    | some e =>
      rw [he] at h
      have hps : ∀ a text t r, parse_sequence G f a text = some (t, some r) →
          ∃ kids, t = .list kids := by
        intro a text t r hs
        obtain ⟨kids, hk⟩ := seqRun_acc_list a text [] t r hs
        exact ⟨kids, by simpa using hk⟩
      rcases altsRun_shape hps (entryAlts e) text v h with h1 | ⟨kids, rem, h1⟩
      · left; exact h1
      · right; exact ⟨.list (.str atom :: kids), rem, h1⟩
    | none =>
      rw [he] at h
      cases h
      rcases matchTok_shape (wsOf G) atom text with h1 | ⟨cap, rest, h1⟩ | ⟨rest, h1⟩
      · left; exact h1
      · right; exact ⟨.str cap, rest, h1⟩
      · right; exact ⟨.none_, rest, h1⟩

/-- C4: for every start symbol, input text and grammar (with its reserved
whitespace entry, without which Python's `parse` raises a `KeyError` at
entry), a finished `parse` returns either the canonical `Fail` value
`(None, None)` or a pair whose remainder is a string (possibly empty); the
same dichotomy propagates through `parse_sequence` (whose success trees are
lists).  The success tree is usually a string or a list, but can itself be
`None`: a terminal whose `re.match` succeeds with a non-participating group 1
(e.g. atom `x)|(y`) returns `(None, remainder)` — a success, distinguished
from `Fail` by its string remainder.  Failure is a first-class value — the
embedding's functions are total, mirroring that parse-time failure never
propagates as a raised exception. -/
theorem parse_fail_canonical :
    ∀ (G : Grammar), HasWs G →
    ∀ (f : Nat),
    (∀ start_symbol text v, parse start_symbol text G f = some v →
      v = Fail ∨ ∃ tr rem, v = (tr, some rem)) ∧
    (∀ atoms text acc v, seqRun (parse_atom G f) atoms text acc = some v →
      v = Fail ∨ ∃ ts rem, v = (.list ts, some rem)) := by
  intro G _ f
  constructor
  · intro start_symbol text v h
    exact parse_atom_shape G f start_symbol text v h
  · intro atoms text acc v h
    exact seqRun_shape atoms text acc v h

/-- Witness for C4: three concrete instances.  A failing parse (`S => x | y`
on `"q"`) hits the first disjunct with the canonical `Fail`; the terminal
atom `x)|(y` on text `"y"` — where Python's `re.match` succeeds with
`m.group(1) = None` — evaluates to the success `(None, "")`, hitting the
second disjunct with tree `None`; a succeeding sequence yields a list tree
and a string remainder. -/
theorem parse_fail_canonical_witness :
    parse ("x)|(y".data) ("y".data) GwT 1 = some ((PVal.none_, some ([] : Str)) : Res) ∧
    (some Fail = some Fail ∨
      ∃ tr rem, some Fail = some ((tr, some rem) : Res)) ∧
    (((PVal.none_, some ([] : Str)) : Res) = Fail ∨
      ∃ tr rem, ((PVal.none_, some ([] : Str)) : Res) = ((tr, some rem) : Res)) ∧
    (((.list [PVal.str ("y".data)], some ([] : Str)) : Res) = Fail ∨
      ∃ ts rem, ((.list [PVal.str ("y".data)], some ([] : Str)) : Res) =
        (.list ts, some rem)) := by
  refine ⟨rfl, ?_, ?_, ?_⟩
  · rcases (parse_fail_canonical GwS ⟨defaultWs, rfl⟩ 2).1 ("S".data) ("q".data)
        Fail rfl with h | ⟨tr, rem, h1⟩
    · left; rw [h]
    · right; exact ⟨tr, rem, by rw [← h1]⟩
  · exact (parse_fail_canonical GwT ⟨defaultWs, rfl⟩ 1).1 ("x)|(y".data) ("y".data)
      (PVal.none_, some ([] : Str)) rfl
  · exact (parse_fail_canonical GwT ⟨defaultWs, rfl⟩ 1).2 ["y".data] ("y".data) []
      (.list [PVal.str ("y".data)], some ([] : Str)) rfl

/-! ## Claim C9: the remainder is always a suffix of the input -/

theorem seqRun_suffix {pa : Str → Str → Option Res}
    (hpa : ∀ a t tr rem, pa a t = some (tr, some rem) → rem <:+ t) :
    ∀ (atoms : List Str) (text : Str) (acc : List PVal) (tr : PVal) (rem : Str),
    seqRun pa atoms text acc = some (tr, some rem) → rem <:+ text := by
  intro atoms
  induction atoms with
  | nil =>
    intro text acc tr rem h
    simp only [seqRun] at h
    injection h with h1
    have h2 := congrArg Prod.snd h1
    injection h2 with h3
    subst h3
    exact List.suffix_refl _
  | cons a rest ih =>
    intro text acc tr rem h
    simp only [seqRun] at h
    cases hp : pa a text with
    | none => rw [hp] at h; cases h
    | some w =>
      obtain ⟨t, rw⟩ := w
      cases rw with
      | none => rw [hp] at h; simp [Fail] at h
      | some t2 =>
        rw [hp] at h
        exact (ih t2 (acc ++ [t]) tr rem h).trans (hpa a text t t2 hp)

theorem altsRun_suffix {ps : List Str → Str → Option Res} {atom : Str}
    (hps : ∀ a t tr rem, ps a t = some (tr, some rem) → rem <:+ t) :
    ∀ (alts : List (List Str)) (text : Str) (tr : PVal) (rem : Str),
    altsRun ps atom alts text = some (tr, some rem) → rem <:+ text := by
  intro alts
  induction alts with
  | nil =>
    intro text tr rem h
    simp only [altsRun] at h
    simp [Fail] at h
  | cons alt rest ih =>
    intro text tr rem h
    simp only [altsRun] at h
    cases hp : ps alt text with
    | none => rw [hp] at h; cases h
    | some w =>
      obtain ⟨t, rw⟩ := w
      cases rw with
      | none => rw [hp] at h; exact ih text tr rem h
      | some r =>
        simp only [hp] at h
        injection h with h1
        have h2 := congrArg Prod.snd h1
        injection h2 with h3
        subst h3
        exact hps alt text t r hp

theorem parse_atom_suffix (G : Grammar) :
    ∀ (f : Nat) (atom text : Str) (tr : PVal) (rem : Str),
    parse_atom G f atom text = some (tr, some rem) → rem <:+ text := by
  intro f
  induction f with
  | zero => intro atom text tr rem h; cases h
  | succ f ih =>
    intro atom text tr rem h
    simp only [parse_atom] at h
    cases he : dictFind G atom with
    | some e =>
      rw [he] at h
      exact altsRun_suffix (fun a t2 tr2 rem2 hs => seqRun_suffix ih a t2 [] tr2 rem2 hs)
        (entryAlts e) text tr rem h
    | none =>
      rw [he] at h
      have h2 : matchTok (wsOf G) atom text = (tr, some rem) := by
        injection h
      exact matchTok_suffix h2

/-- C9: whenever `parse` (or the internal matching of any atom or any
sequence of atoms) returns a non-`None` remainder for an input text, that
remainder is a suffix of the input — the parser only removes a prefix and
never reorders, duplicates, or synthesizes remaining input. -/
theorem parse_remainder_suffix :
    ∀ (G : Grammar) (f : Nat),
    (∀ start_symbol text tr rem,
      parse start_symbol text G f = some (tr, some rem) → rem <:+ text) ∧
    (∀ atoms text acc tr rem,
      seqRun (parse_atom G f) atoms text acc = some (tr, some rem) → rem <:+ text) := by
  intro G f
  constructor
  · intro s text tr rem h
    exact parse_atom_suffix G f s text tr rem h
  · intro atoms text acc tr rem h
    exact seqRun_suffix (fun a t2 tr2 rem2 hs => parse_atom_suffix G f a t2 tr2 rem2 hs)
      atoms text acc tr rem h

/-- Witness for C9: the parse of `"\"a\"x"` under `G6` leaves remainder `"x"`,
a suffix of the input; the sequence `["a"]` on `" a b"` leaves `" b"`. -/
theorem parse_remainder_suffix_witness :
    ("x".data : Str) <:+ ("\"a\"x".data : Str) ∧ (" b".data : Str) <:+ (" a b".data : Str) := by
  constructor
  · exact (parse_remainder_suffix G6 3).1 ("value".data) ("\"a\"x".data)
      (.list [.str ("value".data), .str ("\"a\"".data)]) ("x".data) rfl
  · exact (parse_remainder_suffix GwT 1).2 ["a".data] (" a b".data) []
      (.list [.str ("a".data)]) (" b".data) rfl

/-! ## Claim C3: terminal tokenization -/

theorem mlStep_tail
    (rec : Regex → Str → List (Str × Option Str × Str))
    (hrecS : ∀ r s t, t ∈ rec r s → t.1 ++ t.2.2 = s)
    (hrec : ∀ (r : Regex) (c : Str) (g : Option Str) (s1 s2 : Str),
      (c, g, s1) ∈ rec r (c ++ s1) → (c, g, s2) ∈ rec r (c ++ s2)) :
    ∀ (r : Regex) (c : Str) (g : Option Str) (s1 s2 : Str),
    (c, g, s1) ∈ mlStep rec r (c ++ s1) → (c, g, s2) ∈ mlStep rec r (c ++ s2) := by
  intro r
  induction r with
  | eps =>
    intro c g s1 s2 h
    simp only [mlStep, List.mem_singleton, Prod.mk.injEq] at h
    obtain ⟨hc, hg, _⟩ := h
    subst hc; subst hg
    simp [mlStep]
  | char ch =>
    intro c g s1 s2 h
    cases c with
    | nil =>
      cases s1 with
      | nil => simp [mlStep] at h
      | cons d rest =>
        simp only [List.nil_append, mlStep] at h
        by_cases hd : d = ch
        · rw [if_pos hd] at h
          simp only [List.mem_singleton, Prod.mk.injEq] at h
          exact absurd h.1 (by simp)
        · rw [if_neg hd] at h; cases h
    | cons e c' =>
      simp only [List.cons_append, mlStep] at h ⊢
      by_cases he : e = ch
      · rw [if_pos he] at h ⊢
        simp only [List.mem_singleton, Prod.mk.injEq] at h ⊢
        obtain ⟨hc, hg, _⟩ := h
        have hc' : c' = [] := by
          have := congrArg List.tail hc; simpa using this
        subst hc'
        exact ⟨hc, hg, rfl⟩
      · rw [if_neg he] at h; cases h
  | wsc =>
    intro c g s1 s2 h
    cases c with
    | nil =>
      cases s1 with
      | nil => simp [mlStep] at h
      | cons d rest =>
        simp only [List.nil_append, mlStep] at h
        by_cases hd : pyIsSpace d
        · rw [if_pos hd] at h
          simp only [List.mem_singleton, Prod.mk.injEq] at h
          exact absurd h.1 (by simp)
        · rw [if_neg hd] at h; cases h
    | cons e c' =>
      simp only [List.cons_append, mlStep] at h ⊢
      by_cases he : pyIsSpace e
      · rw [if_pos he] at h ⊢
        simp only [List.mem_singleton, Prod.mk.injEq] at h ⊢
        obtain ⟨hc, hg, _⟩ := h
        have hc' : c' = [] := by
          have := congrArg List.tail hc; simpa using this
        subst hc'
        exact ⟨hc, hg, rfl⟩
      · rw [if_neg he] at h; cases h
  | cls neg items =>
    intro c g s1 s2 h
    cases c with
    | nil =>
      cases s1 with
      | nil => simp [mlStep] at h
      | cons d rest =>
        simp only [List.nil_append, mlStep] at h
        by_cases hd : clsMatch neg items d
        · rw [if_pos hd] at h
          simp only [List.mem_singleton, Prod.mk.injEq] at h
          exact absurd h.1 (by simp)
        · rw [if_neg hd] at h; cases h
    | cons e c' =>
      simp only [List.cons_append, mlStep] at h ⊢
      by_cases he : clsMatch neg items e
      · rw [if_pos he] at h ⊢
        simp only [List.mem_singleton, Prod.mk.injEq] at h ⊢
        obtain ⟨hc, hg, _⟩ := h
        have hc' : c' = [] := by
          have := congrArg List.tail hc; simpa using this
        subst hc'
        exact ⟨hc, hg, rfl⟩
      · rw [if_neg he] at h; cases h
  | alt a b iha ihb =>
    intro c g s1 s2 h
    simp only [mlStep, List.mem_append] at h ⊢
    rcases h with h | h
    · exact Or.inl (iha c g s1 s2 h)
    · exact Or.inr (ihb c g s1 s2 h)
  | star a iha =>
    intro c g s1 s2 h
    simp only [mlStep, List.mem_append, List.mem_flatMap, List.mem_filter,
      List.mem_map, List.mem_singleton] at h
    rcases h with ⟨⟨u1, ug, u3⟩, ⟨hu, hune⟩, ⟨w1, wg, w3⟩, hw, heq⟩ | heq
    · simp only [Prod.mk.injEq] at heq
      obtain ⟨hc, hg, hs1⟩ := heq
      subst hc; subst hg; subst hs1
      have hsu : u1 ++ u3 = (u1 ++ w1) ++ w3 := mlStep_suffix rec hrecS a _ _ hu
      rw [List.append_assoc] at hsu
      have hu3 : u3 = w1 ++ w3 := List.append_cancel_left hsu
      subst hu3
      rw [List.append_assoc] at hu
      have hu' := iha u1 ug (w1 ++ w3) (w1 ++ s2) hu
      have hw' := hrec (.star a) w1 wg w3 s2 hw
      rw [List.append_assoc]
      simp only [mlStep, List.mem_append, List.mem_flatMap, List.mem_filter,
        List.mem_map, List.mem_singleton]
      left
      exact ⟨(u1, ug, w1 ++ s2), ⟨hu', by simpa using hune⟩, (w1, wg, s2), hw', rfl⟩
    · simp only [Prod.mk.injEq] at heq
      obtain ⟨hc, hg, _⟩ := heq
      subst hc; subst hg
      simp only [List.nil_append, mlStep, List.mem_append, List.mem_singleton]
      right; trivial
  | seq a b iha ihb =>
    intro c g s1 s2 h
    simp only [mlStep, List.mem_flatMap, List.mem_map] at h
    obtain ⟨⟨u1, ug, u3⟩, hu, ⟨w1, wg, w3⟩, hw, heq⟩ := h
    simp only [Prod.mk.injEq] at heq
    obtain ⟨hc, hg, hs1⟩ := heq
    subst hc; subst hg; subst hs1
    have hsu : u1 ++ u3 = (u1 ++ w1) ++ w3 := mlStep_suffix rec hrecS a _ _ hu
    rw [List.append_assoc] at hsu
    have hu3 : u3 = w1 ++ w3 := List.append_cancel_left hsu
    subst hu3
    rw [List.append_assoc] at hu
    have hu' := iha u1 ug (w1 ++ w3) (w1 ++ s2) hu
    have hw' := ihb w1 wg w3 s2 hw
    rw [List.append_assoc]
    simp only [mlStep, List.mem_flatMap, List.mem_map]
    exact ⟨(u1, ug, w1 ++ s2), hu', (w1, wg, s2), hw', rfl⟩
  | group a iha =>
    intro c g s1 s2 h
    simp only [mlStep, List.mem_map] at h
    obtain ⟨⟨u1, ug, u3⟩, hu, heq⟩ := h
    simp only [Prod.mk.injEq] at heq
    obtain ⟨hc, hg, hs1⟩ := heq
    subst hc; subst hg; subst hs1
    have hu' := iha u1 ug u3 s2 hu
    simp only [mlStep, List.mem_map]
    exact ⟨(u1, ug, s2), hu', rfl⟩

theorem mlF_tail :
    ∀ (f : Nat) (r : Regex) (c : Str) (g : Option Str) (s1 s2 : Str),
    (c, g, s1) ∈ Regex.mlF f r (c ++ s1) → (c, g, s2) ∈ Regex.mlF f r (c ++ s2) := by
  intro f
  induction f with
  | zero => intro r c g s1 s2 h; cases h
  | succ f ih => exact mlStep_tail (Regex.mlF f) (mlF_suffix f) ih

/-- A prefix consumed by some backtracking path is fully matched by the
regex on its own: matching is local to the consumed characters. -/
theorem fullMatch_of_mem {f : Nat} {r : Regex} {s : Str}
    (t : Str × Option Str × Str) (h : t ∈ Regex.mlF f r s) (hs : s = t.1 ++ t.2.2) :
    FullMatch r t.1 := by
  obtain ⟨c, g, rest⟩ := t
  subst hs
  exact ⟨f, g, by simpa using mlF_tail f r c g rest [] h⟩

theorem mlF_seq_mem {f : Nat} {a b : Regex} {s : Str} {t : Str × Option Str × Str}
    (h : t ∈ Regex.mlF (f + 1) (.seq a b) s) :
    ∃ u w, u ∈ Regex.mlF (f + 1) a s ∧ w ∈ Regex.mlF (f + 1) b u.2.2 ∧
      t = (u.1 ++ w.1, mergeCap u.2.1 w.2.1, w.2.2) := by
  simp only [Regex.mlF, mlStep, List.mem_flatMap, List.mem_map] at h
  obtain ⟨u, hu, w, hw, heq⟩ := h
  exact ⟨u, w, hu, hw, heq.symm⟩

theorem mlF_group_mem {f : Nat} {a : Regex} {s : Str} {t : Str × Option Str × Str}
    (h : t ∈ Regex.mlF (f + 1) (.group a) s) :
    ∃ u, u ∈ Regex.mlF (f + 1) a s ∧ t = (u.1, some u.1, u.2.2) := by
  simp only [Regex.mlF, mlStep, List.mem_map] at h
  obtain ⟨u, hu, heq⟩ := h
  exact ⟨u, hu, heq.symm⟩

theorem mlF_eps_mem {f : Nat} {s : Str} {t : Str × Option Str × Str}
    (h : t ∈ Regex.mlF (f + 1) .eps s) : t = ([], none, s) := by
  simp only [Regex.mlF, mlStep, List.mem_singleton] at h
  exact h

theorem tokSplit_eq {R wsR atomR : Regex} (h : tokSplit R = some (wsR, atomR)) :
    (wsR = Regex.eps ∧ R = Regex.seq (.group atomR) .eps) ∨
    R = Regex.seq wsR (.seq (.group atomR) .eps) := by
  unfold tokSplit at h
  split at h
  · injection h with h1
    rw [Prod.mk.injEq] at h1
    obtain ⟨h2, h3⟩ := h1
    subst h2; subst h3
    left; exact ⟨rfl, rfl⟩
  · injection h with h1
    rw [Prod.mk.injEq] at h1
    obtain ⟨h2, h3⟩ := h1
    subst h2; subst h3
    right; rfl
  · exact Option.noConfusion h

/-- C3: for every terminal atom (one that is not a key of the grammar) and
input text, the matcher matches — anchored at the start of the text — the
grammar's whitespace pattern followed by the atom's regex wrapped in a
capturing group, returning the captured group text paired with the text minus
the whole matched prefix, and `Fail` on failure (first conjunct: the terminal
branch of `parse_atom` is exactly `matchTok` on the grammar's stored
whitespace pattern).  Second conjunct: whenever the tokenizer pattern
compiles to the expected shape — the whitespace part followed by the
capturing group around the atom's regex, which `tokSplit` recognizes — and
the text matches with a participating group 1, the result decomposes the
input as `wsPart ++ cap ++ rest` where `wsPart` is matched by the whitespace
regex and the captured text `cap` is matched by the atom's regex alone: the
leading whitespace consumed by the match is never part of the captured
terminal text. -/
theorem terminal_token_match :
    (∀ (G : Grammar) (f : Nat) (atom text ws : Str),
      dictFind G spaceKey = some (.wsE ws) → dictFind G atom = none →
      parse_atom G (f + 1) atom text = some (matchTok ws atom text)) ∧
    (∀ (ws atom text : Str) (R wsR atomR : Regex),
      compileRe (tokPattern ws atom) = some R →
      tokSplit R = some (wsR, atomR) →
      (matchTok ws atom text = Fail ∨
       ∃ cap rest wsPart,
         matchTok ws atom text = (.str cap, some rest) ∧
         text = wsPart ++ cap ++ rest ∧
         FullMatch wsR wsPart ∧ FullMatch atomR cap)) := by
  constructor
  · intro G f atom text ws hws hterm
    have hwsOf : wsOf G = ws := by simp [wsOf, hws]
    simp only [parse_atom, hterm, hwsOf]
  · intro ws atom text R wsR atomR hcomp hsplit
    rcases tokSplit_eq hsplit with ⟨hws, hR⟩ | hR
    · subst hws; subst hR
      cases hm : reMatch (.seq (.group atomR) .eps) text with
      | none => left; simp [matchTok, hcomp, hm]
      | some trip =>
        right
        have hmem : trip ∈ Regex.mlF (text.length + 1)
            (.seq (.group atomR) .eps) text := head?_mem hm
        obtain ⟨u, w, hu, hw, htrip⟩ := mlF_seq_mem hmem
        obtain ⟨v, hv, hueq⟩ := mlF_group_mem hu
        have hweq := mlF_eps_mem hw
        have hsv : v.1 ++ v.2.2 = text := mlF_suffix _ _ _ v hv
        have htripv : trip = (v.1, some v.1, v.2.2) := by
          rw [htrip, hweq, hueq]
          simp [mergeCap]
        refine ⟨v.1, v.2.2, [], ?_, ?_, ?_, ?_⟩
        · simp [matchTok, hcomp, hm, htripv]
        · rw [← hsv]; simp
        · exact ⟨1, none, by simp [Regex.mlF, mlStep]⟩
        · exact fullMatch_of_mem v hv hsv.symm
    · subst hR
      cases hm : reMatch (.seq wsR (.seq (.group atomR) .eps)) text with
      | none => left; simp [matchTok, hcomp, hm]
      | some trip =>
        right
        have hmem : trip ∈ Regex.mlF (text.length + 1)
            (.seq wsR (.seq (.group atomR) .eps)) text := head?_mem hm
        obtain ⟨u, w, hu, hw, htrip⟩ := mlF_seq_mem hmem
        obtain ⟨u2, w2, hu2, hw2, hweq⟩ := mlF_seq_mem hw
        obtain ⟨v, hv, hu2eq⟩ := mlF_group_mem hu2
        have hw2eq := mlF_eps_mem hw2
        have hsu : u.1 ++ u.2.2 = text := mlF_suffix _ _ _ u hu
        have hsv : v.1 ++ v.2.2 = u.2.2 := mlF_suffix _ _ _ v hv
        have hweq2 : w = (v.1, some v.1, v.2.2) := by
          rw [hweq, hu2eq, hw2eq, hu2eq]
          simp [mergeCap]
        have htripv : trip = (u.1 ++ v.1, some v.1, v.2.2) := by
          rw [htrip, hweq2]
          simp [mergeCap]
        refine ⟨v.1, v.2.2, u.1, ?_, ?_, ?_, ?_⟩
        · simp [matchTok, hcomp, hm, htripv]
        · rw [← hsu, ← hsv]
          simp [List.append_assoc]
        · exact fullMatch_of_mem u hu hsu.symm
        · exact fullMatch_of_mem v hv hsv.symm

/-- Witness for C3: the repository's own terminal atom `[0-9]` with the
default whitespace pattern `\s*` on text `" 5x"`.  The first conjunct is
instantiated at the all-terminal grammar; the second conjunct's decomposition
exhibits the whitespace-matched part `" "`, the captured digit `"5"` (without
the space) and the remainder `"x"`. -/
theorem terminal_token_match_witness :
    parse_atom GwT 1 ("[0-9]".data) (" 5x".data) =
      some (matchTok defaultWs ("[0-9]".data) (" 5x".data)) ∧
    (matchTok defaultWs ("[0-9]".data) (" 5x".data) = Fail ∨
     ∃ cap rest wsPart,
       matchTok defaultWs ("[0-9]".data) (" 5x".data) = (.str cap, some rest) ∧
       (" 5x".data : Str) = wsPart ++ cap ++ rest ∧
       FullMatch (.star .wsc) wsPart ∧
       FullMatch (.seq (.cls false [.range '0' '9']) .eps) cap) := by
  constructor
  · exact terminal_token_match.1 GwT 0 ("[0-9]".data) (" 5x".data) defaultWs rfl rfl
  · exact terminal_token_match.2 defaultWs ("[0-9]".data) (" 5x".data)
      (.seq (.star .wsc) (.seq (.group (.seq (.cls false [.range '0' '9']) .eps)) .eps))
      (.star .wsc) (.seq (.cls false [.range '0' '9']) .eps) rfl rfl

/-! ## Claim C8: memoization does not change results -/

theorem seqRun_mono (pa pa' : Str → Str → Option Res)
    (h : ∀ a t v, pa a t = some v → pa' a t = some v) :
    ∀ (atoms : List Str) (text : Str) (acc : List PVal) (v : Res),
    seqRun pa atoms text acc = some v → seqRun pa' atoms text acc = some v := by
  intro atoms
  induction atoms with
  | nil => intro text acc v hv; exact hv
  | cons a rest ih =>
    intro text acc v hv
    simp only [seqRun] at hv ⊢
    cases hp : pa a text with
    | none => rw [hp] at hv; cases hv
    | some w =>
      rw [hp] at hv
      rw [h a text w hp]
      obtain ⟨t, rw⟩ := w
      cases rw with
      | none => exact hv
      | some t2 => exact ih t2 (acc ++ [t]) v hv

theorem altsRun_mono (ps ps' : List Str → Str → Option Res)
    (h : ∀ alt t v, ps alt t = some v → ps' alt t = some v) (atom : Str) :
    ∀ (alts : List (List Str)) (text : Str) (v : Res),
    altsRun ps atom alts text = some v → altsRun ps' atom alts text = some v := by
  intro alts
  induction alts with
  | nil => intro text v hv; exact hv
  | cons alt rest ih =>
    intro text v hv
    simp only [altsRun] at hv ⊢
    cases hp : ps alt text with
    | none => rw [hp] at hv; cases hv
    | some w =>
      rw [hp] at hv
      rw [h alt text w hp]
      obtain ⟨t, rw⟩ := w
      cases rw with
      | none => exact ih text v hv
      | some r => exact hv

theorem parse_atom_step (G : Grammar) :
    ∀ (f : Nat) (a t : Str) (v : Res),
    parse_atom G f a t = some v → parse_atom G (f + 1) a t = some v := by
  intro f
  induction f with
  | zero => intro a t v h; cases h
  | succ f ih =>
    intro a t v h
    simp only [parse_atom] at h ⊢
    cases he : dictFind G a with
    | some e =>
      rw [he] at h
      exact altsRun_mono (fun alt t2 => seqRun (parse_atom G f) alt t2 [])
        (fun alt t2 => seqRun (parse_atom G (f + 1)) alt t2 [])
        (fun alt t2 v2 hv2 => seqRun_mono _ _ ih alt t2 [] v2 hv2) a (entryAlts e) t v h
    | none =>
      rw [he] at h
      exact h

theorem parse_atom_mono (G : Grammar) :
    ∀ {f f' : Nat}, f ≤ f' → ∀ (a t : Str) (v : Res),
    parse_atom G f a t = some v → parse_atom G f' a t = some v := by
  intro f f' h
  induction h with
  | refl => intro a t v hv; exact hv
  | step _ ih => intro a t v hv; exact parse_atom_step G _ a t v (ih a t v hv)

theorem convA_unique {G : Grammar} {a t : Str} {v w : Res}
    (hv : ConvA G a t v) (hw : ConvA G a t w) : v = w := by
  obtain ⟨f1, h1⟩ := hv
  obtain ⟨f2, h2⟩ := hw
  have h1' := parse_atom_mono G (Nat.le_max_left f1 f2) a t v h1
  have h2' := parse_atom_mono G (Nat.le_max_right f1 f2) a t w h2
  rw [h1'] at h2'
  injection h2'

theorem lookupC_insert {c : Cache} {k k' : Str × Str} {v w : Res}
    (h : lookupC (insertC c k v) k' = some w) :
    (k' = k ∧ w = v) ∨ lookupC c k' = some w := by
  induction c with
  | nil =>
    simp only [insertC, lookupC] at h
    by_cases hk : k = k'
    · rw [if_pos hk] at h
      injection h with h1
      exact Or.inl ⟨hk.symm, h1.symm⟩
    · rw [if_neg hk] at h; cases h
  | cons p rest ih =>
    obtain ⟨k2, v2⟩ := p
    by_cases h2 : k2 = k
    · subst h2
      simp only [insertC, if_pos rfl, lookupC] at h ⊢
      by_cases hk : k2 = k'
      · rw [if_pos hk] at h ⊢
        injection h with h1
        exact Or.inl ⟨hk.symm, h1.symm⟩
      · rw [if_neg hk] at h ⊢
        exact Or.inr h
    · simp only [insertC, if_neg h2, lookupC] at h ⊢
      by_cases hk : k2 = k'
      · rw [if_pos hk] at h ⊢
        exact Or.inr h
      · rw [if_neg hk] at h ⊢
        exact ih h

theorem cacheOK_insert {G : Grammar} {c : Cache} {a t : Str} {v : Res}
    (hc : CacheOK G c) (hv : ConvA G a t v) : CacheOK G (insertC c (a, t) v) := by
  intro a' t' w hw
  rcases lookupC_insert hw with ⟨hk, hwv⟩ | hl
  · injection hk with hk1 hk2
    subst hk1; subst hk2; subst hwv
    exact hv
  · exact hc a' t' w hl

theorem cacheOK_nil (G : Grammar) : CacheOK G [] := by
  intro a t v h
  cases h

theorem seqRunM_sound (G : Grammar) (paM : Str → Str → Cache → Option (Res × Cache))
    (hpa : ∀ a t c v c', CacheOK G c → paM a t c = some (v, c') →
      ConvA G a t v ∧ CacheOK G c') :
    ∀ (atoms : List Str) (text : Str) (acc : List PVal) (c : Cache) (v : Res) (c' : Cache),
    CacheOK G c → seqRunM paM atoms text acc c = some (v, c') →
    (∃ F, seqRun (parse_atom G F) atoms text acc = some v) ∧ CacheOK G c' := by
  intro atoms
  induction atoms with
  | nil =>
    intro text acc c v c' hc h
    simp only [seqRunM] at h
    injection h with h1
    have hv := congrArg Prod.fst h1
    have hcc := congrArg Prod.snd h1
    simp only [] at hv hcc
    subst hv; subst hcc
    exact ⟨⟨0, rfl⟩, hc⟩
  | cons a rest ih =>
    intro text acc c v c' hc h
    simp only [seqRunM] at h
    cases hp : paM a text c with
    | none => rw [hp] at h; cases h
    | some w =>
      obtain ⟨⟨t, rem⟩, c2⟩ := w
      obtain ⟨hconv, hc2⟩ := hpa a text c (t, rem) c2 hc hp
      cases rem with
      | none =>
        simp only [hp] at h
        injection h with h1
        have hv := congrArg Prod.fst h1
        have hcc := congrArg Prod.snd h1
        simp only [] at hv hcc
        subst hv; subst hcc
        obtain ⟨F0, hF0⟩ := hconv
        refine ⟨⟨F0, ?_⟩, hc2⟩
        simp only [seqRun, hF0]
      | some t2 =>
        simp only [hp] at h
        obtain ⟨⟨F1, hseq⟩, hc'⟩ := ih t2 (acc ++ [t]) c2 v c' hc2 h
        obtain ⟨F0, hF0⟩ := hconv
        refine ⟨⟨max F0 F1, ?_⟩, hc'⟩
        have hpa' := parse_atom_mono G (Nat.le_max_left F0 F1) a text (t, some t2) hF0
        have hseq' := seqRun_mono (parse_atom G F1) (parse_atom G (max F0 F1))
          (fun a2 t3 v2 hv2 => parse_atom_mono G (Nat.le_max_right F0 F1) a2 t3 v2 hv2)
          rest t2 (acc ++ [t]) v hseq
        simp only [seqRun, hpa']
        exact hseq'

theorem altsRunM_sound (G : Grammar)
    (psM : List Str → Str → Cache → Option (Res × Cache)) (atom : Str)
    (hps : ∀ alt t c v c', CacheOK G c → psM alt t c = some (v, c') →
      (∃ F, seqRun (parse_atom G F) alt t [] = some v) ∧ CacheOK G c') :
    ∀ (alts : List (List Str)) (text : Str) (c : Cache) (v : Res) (c' : Cache),
    CacheOK G c → altsRunM psM atom alts text c = some (v, c') →
    (∃ F, altsRun (fun alt t => seqRun (parse_atom G F) alt t []) atom alts text = some v) ∧
      CacheOK G c' := by
  intro alts
  induction alts with
  | nil =>
    intro text c v c' hc h
    simp only [altsRunM] at h
    injection h with h1
    have hv := congrArg Prod.fst h1
    have hcc := congrArg Prod.snd h1
    simp only [] at hv hcc
    subst hv; subst hcc
    exact ⟨⟨0, rfl⟩, hc⟩
  | cons alt rest ih =>
    intro text c v c' hc h
    simp only [altsRunM] at h
    cases hp : psM alt text c with
    | none => rw [hp] at h; cases h
    | some w =>
      obtain ⟨⟨t, rem⟩, c2⟩ := w
      obtain ⟨⟨F0, hF0⟩, hc2⟩ := hps alt text c (t, rem) c2 hc hp
      cases rem with
      | some r =>
        simp only [hp] at h
        injection h with h1
        have hv := congrArg Prod.fst h1
        have hcc := congrArg Prod.snd h1
        simp only [] at hv hcc
        subst hv; subst hcc
        refine ⟨⟨F0, ?_⟩, hc2⟩
        simp only [altsRun, hF0]
      | none =>
        simp only [hp] at h
        obtain ⟨⟨F1, h1⟩, hc'⟩ := ih text c2 v c' hc2 h
        refine ⟨⟨max F0 F1, ?_⟩, hc'⟩
        have hF0' := seqRun_mono (parse_atom G F0) (parse_atom G (max F0 F1))
          (fun a2 t3 v2 hv2 => parse_atom_mono G (Nat.le_max_left F0 F1) a2 t3 v2 hv2)
          alt text [] (t, none) hF0
        have h1' := altsRun_mono (fun alt2 t2 => seqRun (parse_atom G F1) alt2 t2 [])
          (fun alt2 t2 => seqRun (parse_atom G (max F0 F1)) alt2 t2 [])
          (fun alt2 t2 v2 hv2 => seqRun_mono (parse_atom G F1) (parse_atom G (max F0 F1))
            (fun a2 t3 v3 hv3 => parse_atom_mono G (Nat.le_max_right F0 F1) a2 t3 v3 hv3)
            alt2 t2 [] v2 hv2)
          atom rest text v h1
        simp only [altsRun, hF0']
        exact h1'

theorem parse_atomM_sound (G : Grammar) :
    ∀ (f : Nat) (a t : Str) (c : Cache) (v : Res) (c' : Cache),
    CacheOK G c → parse_atomM G f a t c = some (v, c') →
    ConvA G a t v ∧ CacheOK G c' := by
  intro f
  induction f with
  | zero => intro a t c v c' _ h; cases h
  | succ f ih =>
    intro a t c v c' hc h
    simp only [parse_atomM] at h
    cases hl : lookupC c (a, t) with
    | some w =>
      simp only [hl] at h
      injection h with h1
      have hv := congrArg Prod.fst h1
      have hcc := congrArg Prod.snd h1
      simp only [] at hv hcc
      subst hv; subst hcc
      exact ⟨hc a t _ hl, hc⟩
    | none =>
      simp only [hl] at h
      cases he : dictFind G a with
      | some e =>
        simp only [he] at h
        cases hrun : altsRunM (fun alt t2 c2 => seqRunM (parse_atomM G f) alt t2 [] c2)
            a (entryAlts e) t c with
        | none => simp only [hrun] at h; cases h
        | some w =>
          obtain ⟨v0, c2⟩ := w
          simp only [hrun] at h
          injection h with h1
          have hv := congrArg Prod.fst h1
          have hcc := congrArg Prod.snd h1
          simp only [] at hv hcc
          subst hv; subst hcc
          have hsound := altsRunM_sound G _ a
            (fun alt t2 c3 v2 c4 hc3 hp =>
              seqRunM_sound G (parse_atomM G f)
                (fun a2 t3 c5 v3 c6 hc5 hp2 => ih a2 t3 c5 v3 c6 hc5 hp2)
                alt t2 [] c3 v2 c4 hc3 hp)
            (entryAlts e) t c v0 c2 hc hrun
          obtain ⟨⟨F, hF⟩, hc2⟩ := hsound
          have hconv : ConvA G a t v0 := by
            refine ⟨F + 1, ?_⟩
            simp only [parse_atom, he]
            exact hF
          exact ⟨hconv, cacheOK_insert hc2 hconv⟩
      | none =>
        simp only [he] at h
        injection h with h1
        have hv := congrArg Prod.fst h1
        have hcc := congrArg Prod.snd h1
        simp only [] at hv hcc
        subst hv; subst hcc
        have hconv : ConvA G a t (matchTok (wsOf G) a t) := by
          refine ⟨1, ?_⟩
          simp only [parse_atom, he]
        exact ⟨hconv, cacheOK_insert hc hconv⟩

theorem seqRunM_complete (G : Grammar) (pa : Str → Str → Option Res)
    (paM : Str → Str → Cache → Option (Res × Cache))
    (hpa : ∀ a t v c, CacheOK G c → pa a t = some v →
      ∃ c', paM a t c = some (v, c') ∧ CacheOK G c') :
    ∀ (atoms : List Str) (text : Str) (acc : List PVal) (v : Res) (c : Cache),
    CacheOK G c → seqRun pa atoms text acc = some v →
    ∃ c', seqRunM paM atoms text acc c = some (v, c') ∧ CacheOK G c' := by
  intro atoms
  induction atoms with
  | nil =>
    intro text acc v c hc h
    simp only [seqRun] at h
    injection h with h1
    subst h1
    exact ⟨c, rfl, hc⟩
  | cons a rest ih =>
    intro text acc v c hc h
    simp only [seqRun] at h
    cases hp : pa a text with
    | none => rw [hp] at h; cases h
    | some w =>
      obtain ⟨t, rem⟩ := w
      obtain ⟨c2, hpM, hc2⟩ := hpa a text (t, rem) c hc hp
      cases rem with
      | none =>
        simp only [hp] at h
        injection h with h1
        subst h1
        exact ⟨c2, by simp only [seqRunM, hpM], hc2⟩
      | some t2 =>
        simp only [hp] at h
        obtain ⟨c', h', hc'⟩ := ih t2 (acc ++ [t]) v c2 hc2 h
        refine ⟨c', ?_, hc'⟩
        simp only [seqRunM, hpM]
        exact h'

theorem altsRunM_complete (G : Grammar) (ps : List Str → Str → Option Res)
    (psM : List Str → Str → Cache → Option (Res × Cache)) (atom : Str)
    (hps : ∀ alt t v c, CacheOK G c → ps alt t = some v →
      ∃ c', psM alt t c = some (v, c') ∧ CacheOK G c') :
    ∀ (alts : List (List Str)) (text : Str) (v : Res) (c : Cache),
    CacheOK G c → altsRun ps atom alts text = some v →
    ∃ c', altsRunM psM atom alts text c = some (v, c') ∧ CacheOK G c' := by
  intro alts
  induction alts with
  | nil =>
    intro text v c hc h
    simp only [altsRun] at h
    injection h with h1
    subst h1
    exact ⟨c, rfl, hc⟩
  | cons alt rest ih =>
    intro text v c hc h
    simp only [altsRun] at h
    cases hp : ps alt text with
    | none => rw [hp] at h; cases h
    | some w =>
      obtain ⟨t, rem⟩ := w
      obtain ⟨c2, hpM, hc2⟩ := hps alt text (t, rem) c hc hp
      cases rem with
      | some r =>
        simp only [hp] at h
        injection h with h1
        subst h1
        exact ⟨c2, by simp only [altsRunM, hpM], hc2⟩
      | none =>
        simp only [hp] at h
        obtain ⟨c', h', hc'⟩ := ih text v c2 hc2 h
        refine ⟨c', ?_, hc'⟩
        simp only [altsRunM, hpM]
        exact h'

theorem parse_atomM_complete (G : Grammar) :
    ∀ (f : Nat) (a t : Str) (v : Res) (c : Cache),
    CacheOK G c → parse_atom G f a t = some v →
    ∃ c', parse_atomM G f a t c = some (v, c') ∧ CacheOK G c' := by
  intro f
  induction f with
  | zero => intro a t v c _ h; cases h
  | succ f ih =>
    intro a t v c hc h
    cases hl : lookupC c (a, t) with
    | some w =>
      have hw : ConvA G a t w := hc a t w hl
      have hv : ConvA G a t v := ⟨f + 1, h⟩
      have hwv : w = v := convA_unique hw hv
      subst hwv
      exact ⟨c, by simp only [parse_atomM, hl], hc⟩
    | none =>
      simp only [parse_atom] at h
      cases he : dictFind G a with
      | some e =>
        rw [he] at h
        have hconv : ConvA G a t v := by
          refine ⟨f + 1, ?_⟩
          simp only [parse_atom, he]
          exact h
        obtain ⟨c2, hrun, hc2⟩ :=
          altsRunM_complete G (fun alt t2 => seqRun (parse_atom G f) alt t2 [])
            (fun alt t2 c2 => seqRunM (parse_atomM G f) alt t2 [] c2) a
            (fun alt t2 v2 c3 hc3 hs =>
              seqRunM_complete G (parse_atom G f) (parse_atomM G f)
                (fun a2 t3 v3 c4 hc4 hp => ih a2 t3 v3 c4 hc4 hp)
                alt t2 [] v2 c3 hc3 hs)
            (entryAlts e) t v c hc h
        refine ⟨insertC c2 (a, t) v, ?_, cacheOK_insert hc2 hconv⟩
        simp only [parse_atomM, hl, he, hrun]
      | none =>
        rw [he] at h
        injection h with h1
        subst h1
        have hconv : ConvA G a t (matchTok (wsOf G) a t) := by
          refine ⟨1, ?_⟩
          simp only [parse_atom, he]
        refine ⟨insertC c (a, t) (matchTok (wsOf G) a t), ?_, cacheOK_insert hc hconv⟩
        simp only [parse_atomM, hl, he]

/-- C8: for every start symbol, input text and grammar, the result of `parse`
with the memo cache enabled (starting from an empty cache) is the same as the
result of the same parse computed without memoization: one converges to a
value exactly when the other does, and to the same value.  Caching `(atom,
text)` results changes only how much fuel is needed, never the returned
`(tree, remainder)`. -/
theorem memo_preserves_result :
    ∀ (G : Grammar) (start_symbol text : Str) (v : Res),
    (∃ f out, parseM start_symbol text G f = some out ∧ out.1 = v) ↔
    (∃ f, parse start_symbol text G f = some v) := by
  intro G s t v
  constructor
  · rintro ⟨f, ⟨v0, c'⟩, hM, hv⟩
    simp only [] at hv
    subst hv
    exact (parse_atomM_sound G f s t [] v0 c' (cacheOK_nil G) hM).1
  · rintro ⟨f, h⟩
    obtain ⟨c', hM, _⟩ := parse_atomM_complete G f s t v [] (cacheOK_nil G) h
    exact ⟨f, (v, c'), hM, rfl⟩
